import Mathlib

/-!
Verification of the mogptk GP core (channel stacking, multi-output kernels,
likelihood layer) against its specification.  The Python sources are embedded
shallowly: tensors become lists or `Fin`-indexed functions, float arithmetic
becomes exact `ℚ`/`ℝ` arithmetic, and the random sampling primitives are made
explicit by passing the underlying standard-normal draws as arguments.
-/

/-! ## Channel stacking: `merge_data` / `split_data` (src/mogptk/gpr/util.py)

A stacked matrix is a list of rows, each row a list of rationals.  `merge_data`
iterates `for channel, x in enumerate(xs)` writing `X[n:n+N[c],0] = channel`
and `X[n:n+N[c],1:] = x`; we mirror the loop with an explicit channel counter
producing the rows `channel :: row` consecutively.  The torch code requires all
channels to share one column count (it writes into a preallocated rectangle);
the embedding assumes rectangular input likewise. -/

abbrev QMat := List (List ℚ)

/-- Rows of channel `c`, `c+1`, ... tagged with their channel index in column
0, concatenated; the loop body of `merge_data` in src/mogptk/gpr/util.py. -/
def tagChannels : ℕ → List QMat → QMat
  | _, [] => []
  | c, x :: xs => x.map (fun row => ((c : ℚ)) :: row) ++ tagChannels (c + 1) xs

/-- `merge_data(xs)` from src/mogptk/gpr/util.py: per-channel row counts `N`
and the stacked, channel-tagged input matrix. -/
def merge_data (xs : List QMat) : List ℕ × QMat :=
  (xs.map List.length, tagChannels 0 xs)

/-- `merge_data(xs, ys)` from src/mogptk/gpr/util.py: the stacked output
column is the concatenation `Y[n:n+N[c],:] = ys[channel]` of the per-channel
output matrices, in channel order. -/
def merge_dataY (xs ys : List QMat) : List ℕ × QMat × QMat :=
  (xs.map List.length, tagChannels 0 xs, ys.flatten)

/-- `split_data(N, X)` from src/mogptk/gpr/util.py for one stacked matrix:
slice `X[n:n+N[channel],:]` for each channel in the order encoded by `N`. -/
def split_one : List ℕ → QMat → List QMat
  | [], _ => []
  | n :: N, X => X.take n :: split_one N (X.drop n)

/-- Per-channel view of `tagChannels`: the tagged pieces before concatenation.
`tagChannels c ps` is the flattening of `tagPieces c ps`. -/
def tagPieces : ℕ → List QMat → List QMat
  | _, [] => []
  | c, p :: ps => p.map (fun row => ((c : ℚ)) :: row) :: tagPieces (c + 1) ps

/-! ## Student's t likelihood moments (src/mogptk/gpr/likelihood.py)

`StudentTLikelihood.mean` returns a tensor of NaNs of the shape of `f` when
`dof <= 1`, else `f`; `variance` returns the scalar NaN when `dof <= 2`, else
the scalar `scale² · dof/(dof-2)`.  NaN is modelled as `none : Option ℚ`, a
value rather than an exception. -/

/-- `StudentTLikelihood.mean(f)`: all-NaN of `f`'s shape for `dof <= 1`,
otherwise `f` itself. -/
def studentT_mean (dof : ℚ) (f : QMat) : List (List (Option ℚ)) :=
  if dof ≤ 1 then f.map (List.map (fun _ => (none : Option ℚ)))
  else f.map (List.map some)

/-- `StudentTLikelihood.variance(f)`: the scalar NaN for `dof <= 2`, otherwise
the scalar `scale().square() * dof/(dof-2)` (independent of `f`). -/
def studentT_variance (dof scale : ℚ) : Option ℚ :=
  if dof ≤ 2 then none
  else some (scale ^ 2 * dof / (dof - 2))

/-! ## MultiOutputLikelihood per-channel dispatch (src/mogptk/gpr/likelihood.py)

`_channel_indices(X)` takes `c = X[:,0].long()` (truncation toward zero; on the
integer-valued channel tags used below this agrees with the floor) and returns,
for each channel `j`, the ascending list of row positions with `c == j`.  Each
primary operation gathers the rows of each channel, applies that channel's
likelihood, and scatters the result back to the original row positions into a
freshly allocated buffer (`torch.empty`, modelled as a junk-filled list of the
right length; `sample` instead writes into its argument).  The per-channel
likelihood operations are passed as opaque functions. -/

/-- Channel tag of a row: `X[:,0].long()` of src/mogptk/gpr/likelihood.py,
i.e. the integer part of column 0 (as a natural number; rows used by the
dispatch theorems carry natural-number tags, where floor and truncation
coincide). -/
def chanOf (row : List ℚ) : ℕ := (⌊row.headD 0⌋).toNat

/-- Row positions of channel `j`: `torch.nonzero(c == j)` returns the indices
in ascending order. -/
def ridx (X : QMat) (j : ℕ) : List ℕ :=
  (List.range X.length).filter (fun n => chanOf (X.getD n []) = j)

/-- `_channel_indices(X)` from src/mogptk/gpr/likelihood.py. -/
def channel_indices (k : ℕ) (X : QMat) : List (List ℕ) :=
  (List.range k).map (ridx X)

/-- Fancy-index read `v[idx]` (gather rows at the given positions). -/
def gatherRows {α : Type} (v : List α) (d : α) (idx : List ℕ) : List α :=
  idx.map (fun n => v.getD n d)

/-- Fancy-index write `res[idx] = vals` (scatter values to positions). -/
def scatterRows {α : Type} : List α → List ℕ → List α → List α
  | res, i :: idx, v :: vals => scatterRows (res.set i v) idx vals
  | res, _, _ => res

/-- The dispatch loop shared by the primary operations of
`MultiOutputLikelihood`: `for i in range(k): res[r[i]] = g(i, r[i])`, starting
from the buffer `init`. -/
def dispatch {α : Type} (k : ℕ) (X : QMat) (g : ℕ → List ℕ → List α)
    (init : List α) : List α :=
  (List.range k).foldl (fun acc i => scatterRows acc (ridx X i) (g i (ridx X i))) init

/-- `MultiOutputLikelihood.log_prob(y, f, X)`: rows of `y` and `f` for channel
`i` go to `likelihoods[i].log_prob`, results return to the original rows. -/
def mol_log_prob (lp : ℕ → List ℚ → QMat → QMat) (k : ℕ) (X : QMat)
    (y : List ℚ) (f : QMat) : QMat :=
  dispatch k X (fun i idx => lp i (gatherRows y 0 idx) (gatherRows f [] idx))
    (f.map (fun _ => []))

/-- `MultiOutputLikelihood.variational_expectation(y, mu, var, X)`: the sum
over channels of each channel's own variational expectation on its rows. -/
def mol_variational_expectation (ve : ℕ → List ℚ → List ℚ → List ℚ → ℚ)
    (k : ℕ) (X : QMat) (y mu var : List ℚ) : ℚ :=
  ((List.range k).map
    (fun i => ve i (gatherRows y 0 (ridx X i)) (gatherRows mu 0 (ridx X i))
      (gatherRows var 0 (ridx X i)))).sum

/-- `MultiOutputLikelihood.mean(f, X)`. -/
def mol_mean (mn : ℕ → QMat → QMat) (k : ℕ) (X : QMat) (f : QMat) : QMat :=
  dispatch k X (fun i idx => mn i (gatherRows f [] idx)) (f.map (fun _ => []))

/-- `MultiOutputLikelihood.variance(f, X)`. -/
def mol_variance (vr : ℕ → QMat → QMat) (k : ℕ) (X : QMat) (f : QMat) : QMat :=
  dispatch k X (fun i idx => vr i (gatherRows f [] idx)) (f.map (fun _ => []))

/-- `MultiOutputLikelihood.sample(f, X)`: `f` is laid out per data point (the
entry at position `n` is the vector of all draws for data point `n`, i.e. a
column `f[:,n]` of the torch `nxN` tensor); the per-channel samples overwrite
the corresponding columns of `f` itself. -/
def mol_sample (sm : ℕ → QMat → QMat) (k : ℕ) (X : QMat) (f : QMat) : QMat :=
  dispatch k X (fun i idx => sm i (gatherRows f [] idx)) f

/-- `MultiOutputLikelihood.predict(mu, var, ci, ...)` on the path with a
confidence interval: each channel's `predict` returns a (mean, lower, upper)
triple of row vectors, scattered into three fresh buffers. -/
def mol_predict (pr : ℕ → List ℚ → List ℚ → List ℚ × List ℚ × List ℚ)
    (k : ℕ) (X : QMat) (mu var : List ℚ) : List ℚ × List ℚ × List ℚ :=
  (dispatch k X (fun i idx => (pr i (gatherRows mu 0 idx) (gatherRows var 0 idx)).1)
      (mu.map (fun _ => 0)),
   dispatch k X (fun i idx => (pr i (gatherRows mu 0 idx) (gatherRows var 0 idx)).2.1)
      (mu.map (fun _ => 0)),
   dispatch k X (fun i idx => (pr i (gatherRows mu 0 idx) (gatherRows var 0 idx)).2.2)
      (mu.map (fun _ => 0)))

/-- Specification-side channel selection: the subsequence of `v`'s rows whose
`X`-row has channel tag `i` (row order preserved). -/
def chanRows {α : Type} (i : ℕ) (X : QMat) (v : List α) : List α :=
  ((X.zip v).filter (fun p => chanOf p.1 = i)).map Prod.snd

/-- Specification-side rank: the position of row `n` within its own channel's
subsequence, i.e. the number of earlier rows with the same channel tag. -/
def chanRank (X : QMat) (n : ℕ) : ℕ :=
  ((List.range n).filter (fun m => chanOf (X.getD m []) = chanOf (X.getD n []))).length

/-! ## Multi-output kernels (src/mogptk/gpr/multioutput.py)

Point sets are `Fin`-indexed matrices `Fin N → Fin D → ℝ` (rows = data points,
columns = input dimensions).  `Ksub i j X1 X2` is the `(|X1|,|X2|)` block as a
function of the row indices.  The helpers `distance`, `average` and
`squared_distance` live in the base-class file kernel.py which is not part of
the sources; they are modelled from the spec.  `_active_input` reselects the
same active columns of both arguments and is the identity on the submatrices
the block formulas consume, so `X1`/`X2` below stand for the already-restricted
inputs.  Channel parameters are indexed by `ℕ`. -/

/-- Modelled from the spec: `Kernel.distance` of the absent kernel.py produces
the pairwise lag matrix `tau[n,m,:] = X1[n,:] - X2[m,:]` consumed as `τ = x-x'`
by the spectral formulas of section 4.2. -/
noncomputable def kdist {N M D : ℕ} (X1 : Fin N → Fin D → ℝ)
    (X2 : Fin M → Fin D → ℝ) (n : Fin N) (m : Fin M) (d : Fin D) : ℝ :=
  X1 n d - X2 m d

/-- Modelled from the spec: `Kernel.average` of the absent kernel.py produces
the pairwise average position `avg[n,m,:] = (X1[n,:] + X2[m,:])/2`, the
`avg=(x+x')/2` of the MOHSM row of the spec's kernel table. -/
noncomputable def kavg {N M D : ℕ} (X1 : Fin N → Fin D → ℝ)
    (X2 : Fin M → Fin D → ℝ) (n : Fin N) (m : Fin M) (d : Fin D) : ℝ :=
  (X1 n d + X2 m d) / 2

/-- Modelled from the spec: `Kernel.squared_distance` of the absent kernel.py,
the elementwise square `(X1[n,:] - X2[m,:])²` consumed by CONV. -/
noncomputable def ksqdist {N M D : ℕ} (X1 : Fin N → Fin D → ℝ)
    (X2 : Fin M → Fin D → ℝ) (n : Fin N) (m : Fin M) (d : Fin D) : ℝ :=
  (X1 n d - X2 m d) ^ 2

/-- `np.power(2.0*np.pi, input_dims/2.0)`: the `(2π)^{D/2}` prefactor of MOSM
and uMOSM. -/
noncomputable def twopiHalf (D : ℕ) : ℝ := Real.sqrt (2 * Real.pi) ^ D

/-- `np.power(2.0*np.pi, input_dims)`: the `(2π)^D` prefactor of MOHSM. -/
noncomputable def twopiFull (D : ℕ) : ℝ := (2 * Real.pi) ^ D

/-- `MultiOutputSpectralKernel.Ksub(i, j, X1, X2)` (MOSM) from
src/mogptk/gpr/multioutput.py, entry `(n,m)` of the block. -/
noncomputable def mosm_Ksub (D : ℕ) (mag : ℕ → ℝ) (mean var delay : ℕ → Fin D → ℝ)
    (phase : ℕ → ℝ) (i j : ℕ) {N M : ℕ} (X1 : Fin N → Fin D → ℝ)
    (X2 : Fin M → Fin D → ℝ) (n : Fin N) (m : Fin M) : ℝ :=
  if i = j then
    (mag i ^ 2 * twopiHalf D * Real.sqrt (∏ d, var i d))
      * Real.exp (-(1/2) * ∑ d, kdist X1 X2 n m d ^ 2 * var i d)
      * Real.cos (2 * Real.pi * ∑ d, kdist X1 X2 n m d * mean i d)
  else
    let invv : Fin D → ℝ := fun d => 1 / (var i d + var j d)
    let dm : Fin D → ℝ := fun d => mean i d - mean j d
    let mg : ℝ := mag i * mag j
      * Real.exp (-Real.pi ^ 2 * ∑ d, dm d * (invv d * dm d))
    let mean2 : Fin D → ℝ := fun d => invv d * (var i d * mean j d + var j d * mean i d)
    let var2 : Fin D → ℝ := fun d => 2 * var i d * invv d * var j d
    let dl : Fin D → ℝ := fun d => delay i d - delay j d
    let ph : ℝ := phase i - phase j
    (mg * twopiHalf D * Real.sqrt (∏ d, var2 d))
      * Real.exp (-(1/2) * ∑ d, (kdist X1 X2 n m d + dl d) ^ 2 * var2 d)
      * Real.cos (2 * Real.pi * ((∑ d, (kdist X1 X2 n m d + dl d) * mean2 d) + ph))

/-- `MultiOutputSpectralKernel.Ksub_diag(i, X1)`: the constant
`magnitude[i]² (2π)^{D/2} √∏variance[i]` repeated `|X1|` times. -/
noncomputable def mosm_Ksub_diag (D : ℕ) (mag : ℕ → ℝ) (var : ℕ → Fin D → ℝ)
    (i : ℕ) {N : ℕ} (_X1 : Fin N → Fin D → ℝ) (_n : Fin N) : ℝ :=
  mag i ^ 2 * twopiHalf D * Real.sqrt (∏ d, var i d)

/-- `self.magnitude().tril()` of uMOSM: the lower triangle of the raw magnitude
matrix. -/
def trilM (L : ℕ → ℕ → ℝ) (a b : ℕ) : ℝ := if b ≤ a then L a b else 0

/-- `self.magnitude().tril().mm(self.magnitude().tril().T)` of uMOSM over `k`
output dimensions: entry `(i,j)` of `L·Lᵀ`. -/
noncomputable def LLt (k : ℕ) (L : ℕ → ℕ → ℝ) (i j : ℕ) : ℝ :=
  ∑ b ∈ Finset.range k, trilM L i b * trilM L j b

/-- `UncoupledMultiOutputSpectralKernel.Ksub(i, j, X1, X2)` (uMOSM) from
src/mogptk/gpr/multioutput.py.  Note the cross-channel cosine
`torch.cos(2.0*np.pi * torch.tensordot(tau+delay, mean, dims=1) + phase)`:
the phase difference is added outside the `2π` factor. -/
noncomputable def umosm_Ksub (D k : ℕ) (L : ℕ → ℕ → ℝ)
    (mean var delay : ℕ → Fin D → ℝ) (phase : ℕ → ℝ) (i j : ℕ) {N M : ℕ}
    (X1 : Fin N → Fin D → ℝ) (X2 : Fin M → Fin D → ℝ) (n : Fin N) (m : Fin M) : ℝ :=
  if i = j then
    (LLt k L i i * twopiHalf D * Real.sqrt (∏ d, var i d))
      * Real.exp (-(1/2) * ∑ d, kdist X1 X2 n m d ^ 2 * var i d)
      * Real.cos (2 * Real.pi * ∑ d, kdist X1 X2 n m d * mean i d)
  else
    let invv : Fin D → ℝ := fun d => 1 / (var i d + var j d)
    let dm : Fin D → ℝ := fun d => mean i d - mean j d
    let mg : ℝ := LLt k L i j
      * Real.exp (-Real.pi ^ 2 * ∑ d, dm d * (invv d * dm d))
    let mean2 : Fin D → ℝ := fun d => invv d * (var i d * mean j d + var j d * mean i d)
    let var2 : Fin D → ℝ := fun d => 2 * var i d * invv d * var j d
    let dl : Fin D → ℝ := fun d => delay i d - delay j d
    let ph : ℝ := phase i - phase j
    (mg * twopiHalf D * Real.sqrt (∏ d, var2 d))
      * Real.exp (-(1/2) * ∑ d, (kdist X1 X2 n m d + dl d) ^ 2 * var2 d)
      * Real.cos (2 * Real.pi * (∑ d, (kdist X1 X2 n m d + dl d) * mean2 d) + ph)

/-- `UncoupledMultiOutputSpectralKernel.Ksub_diag(i, X1)`. -/
noncomputable def umosm_Ksub_diag (D k : ℕ) (L : ℕ → ℕ → ℝ)
    (var : ℕ → Fin D → ℝ) (i : ℕ) {N : ℕ} (_X1 : Fin N → Fin D → ℝ)
    (_n : Fin N) : ℝ :=
  LLt k L i i * twopiHalf D * Real.sqrt (∏ d, var i d)

/-- `CrossSpectralKernel.Ksub(i, j, X1, X2)` (CSM) from
src/mogptk/gpr/multioutput.py: sum over the `Rq` subcomponents. -/
noncomputable def csm_Ksub (D Rq : ℕ) (amp : ℕ → Fin Rq → ℝ)
    (mean var : Fin D → ℝ) (shift : ℕ → Fin Rq → ℝ) (i j : ℕ) {N M : ℕ}
    (X1 : Fin N → Fin D → ℝ) (X2 : Fin M → Fin D → ℝ) (n : Fin N) (m : Fin M) : ℝ :=
  if i = j then
    ∑ r, amp i r * Real.exp (-(1/2) * ∑ d, kdist X1 X2 n m d ^ 2 * var d)
      * Real.cos (2 * Real.pi * ∑ d, kdist X1 X2 n m d * mean d)
  else
    ∑ r, Real.sqrt (amp i r * amp j r)
      * Real.exp (-(1/2) * ∑ d, kdist X1 X2 n m d ^ 2 * var d)
      * Real.cos (2 * Real.pi * ((∑ d, kdist X1 X2 n m d * mean d)
          + (shift i r - shift j r)))

/-- `CrossSpectralKernel.Ksub_diag(i, X1)`: `amplitude[i].sum()` repeated. -/
noncomputable def csm_Ksub_diag (D Rq : ℕ) (amp : ℕ → Fin Rq → ℝ) (i : ℕ)
    {N : ℕ} (_X1 : Fin N → Fin D → ℝ) (_n : Fin N) : ℝ :=
  ∑ r, amp i r

/-- `LinearModelOfCoregionalizationKernel.Ksub(i, j, X1, X2)` (LMC): the base
kernels `K_q` of the absent kernel.py are passed as size-polymorphic block
functions. -/
noncomputable def lmc_Ksub (D Q Rq : ℕ)
    (baseK : ℕ → (N' M' : ℕ) → (Fin N' → Fin D → ℝ) → (Fin M' → Fin D → ℝ)
      → Fin N' → Fin M' → ℝ)
    (w : ℕ → Fin Q → Fin Rq → ℝ) (i j : ℕ) {N M : ℕ}
    (X1 : Fin N → Fin D → ℝ) (X2 : Fin M → Fin D → ℝ) (n : Fin N) (m : Fin M) : ℝ :=
  ∑ q, (∑ rq, w i q rq * w j q rq) * baseK q N M X1 X2 n m

/-- `LinearModelOfCoregionalizationKernel.Ksub_diag(i, X1)`. -/
noncomputable def lmc_Ksub_diag (D Q Rq : ℕ)
    (baseKdiag : ℕ → (N' : ℕ) → (Fin N' → Fin D → ℝ) → Fin N' → ℝ)
    (w : ℕ → Fin Q → Fin Rq → ℝ) (i : ℕ) {N : ℕ}
    (X1 : Fin N → Fin D → ℝ) (n : Fin N) : ℝ :=
  ∑ q, (∑ rq, w i q rq ^ 2) * baseKdiag q N X1 n

/-- `IndependentMultiOutputKernel.Ksub(i, j, X1, X2)`: the sub-kernel's own
block on the diagonal, the exact zero matrix off it. -/
noncomputable def imo_Ksub (D : ℕ)
    (baseK : ℕ → (N' M' : ℕ) → (Fin N' → Fin D → ℝ) → (Fin M' → Fin D → ℝ)
      → Fin N' → Fin M' → ℝ)
    (i j : ℕ) {N M : ℕ} (X1 : Fin N → Fin D → ℝ) (X2 : Fin M → Fin D → ℝ)
    (n : Fin N) (m : Fin M) : ℝ :=
  if i = j then baseK i N M X1 X2 n m else 0

/-- `IndependentMultiOutputKernel.Ksub_diag(i, X1)`. -/
noncomputable def imo_Ksub_diag (D : ℕ)
    (baseKdiag : ℕ → (N' : ℕ) → (Fin N' → Fin D → ℝ) → Fin N' → ℝ)
    (i : ℕ) {N : ℕ} (X1 : Fin N → Fin D → ℝ) (n : Fin N) : ℝ :=
  baseKdiag i N X1 n

/-- `GaussianConvolutionProcessKernel.Ksub(i, j, X1, X2)` (CONV) with `X2`
given explicitly (the claims quantify over explicit point-set pairs, on which
the code takes its `else` branch). -/
noncomputable def conv_Ksub (D : ℕ) (w : ℕ → ℝ) (var : ℕ → Fin D → ℝ)
    (bvar : Fin D → ℝ) (i j : ℕ) {N M : ℕ} (X1 : Fin N → Fin D → ℝ)
    (X2 : Fin M → Fin D → ℝ) (n : Fin N) (m : Fin M) : ℝ :=
  let vs : Fin D → ℝ := fun d => var i d + var j d + bvar d
  (w i * w j * Real.sqrt ((∏ d, bvar d) / ∏ d, vs d))
    * Real.exp (-(1/2) * ∑ d, ksqdist X1 X2 n m d * (1 / vs d))

/-- `GaussianConvolutionProcessKernel.Ksub_diag(i, X1)`: the same-channel
weight (computed with `2·variance[i] + base_variance`) repeated. -/
noncomputable def conv_Ksub_diag (D : ℕ) (w : ℕ → ℝ) (var : ℕ → Fin D → ℝ)
    (bvar : Fin D → ℝ) (i : ℕ) {N : ℕ} (_X1 : Fin N → Fin D → ℝ)
    (_n : Fin N) : ℝ :=
  let vs : Fin D → ℝ := fun d => 2 * var i d + bvar d
  w i ^ 2 * Real.sqrt ((∏ d, bvar d) / ∏ d, vs d)

/-- `MultiOutputHarmonizableSpectralKernel.Ksub(i, j, X1, X2)` (MOHSM) from
src/mogptk/gpr/multioutput.py: the MOSM-style spectral factor with the
`(2π)^D` prefactor, the `lengthscale^{D}` factor, and the Gaussian envelope in
the average position.  The local `lengthscale` of the code is the squared
parameter `lengthscale()[i]**2`; in the cross block the phase is again added
outside the `2π` factor. -/
noncomputable def mohsm_Ksub (D : ℕ) (mag : ℕ → ℝ) (mean var delay : ℕ → Fin D → ℝ)
    (ls phase : ℕ → ℝ) (center : Fin D → ℝ) (i j : ℕ) {N M : ℕ}
    (X1 : Fin N → Fin D → ℝ) (X2 : Fin M → Fin D → ℝ) (n : Fin N) (m : Fin M) : ℝ :=
  if i = j then
    let l2 : ℝ := ls i ^ 2
    (mag i ^ 2 * twopiFull D * Real.sqrt (∏ d, var i d) * Real.sqrt l2 ^ D)
      * Real.exp (-(1/2) * ∑ d, kdist X1 X2 n m d ^ 2 * var i d)
      * Real.cos (2 * Real.pi * ∑ d, kdist X1 X2 n m d * mean i d)
      * Real.exp (-(1/2) * ∑ d, (kavg X1 X2 n m d - center d) ^ 2 * l2)
  else
    let l2i : ℝ := ls i ^ 2
    let l2j : ℝ := ls j ^ 2
    let invv : Fin D → ℝ := fun d => 1 / (var i d + var j d)
    let invl : ℝ := 1 / (l2i + l2j)
    let dm : Fin D → ℝ := fun d => mean i d - mean j d
    let mg : ℝ := mag i * mag j
      * Real.exp (-Real.pi ^ 2 * ∑ d, dm d * (invv d * dm d))
    let mean2 : Fin D → ℝ := fun d => invv d * (var i d * mean j d + var j d * mean i d)
    let var2 : Fin D → ℝ := fun d => 2 * var i d * invv d * var j d
    let l2 : ℝ := 2 * l2i * invl * l2j
    let dl : Fin D → ℝ := fun d => delay i d - delay j d
    let ph : ℝ := phase i - phase j
    (mg * twopiFull D * Real.sqrt (∏ d, var2 d) * Real.sqrt l2 ^ D)
      * Real.exp (-(1/2) * ∑ d, (kdist X1 X2 n m d + dl d) ^ 2 * var2 d)
      * Real.cos (2 * Real.pi * (∑ d, (kdist X1 X2 n m d + dl d) * mean2 d) + ph)
      * Real.exp (-(1/2) * ∑ d, (kavg X1 X2 n m d - center d) ^ 2 * l2)

/-- `MultiOutputHarmonizableSpectralKernel.Ksub_diag(i, X1)`: alpha times the
envelope at the data points themselves. -/
noncomputable def mohsm_Ksub_diag (D : ℕ) (mag : ℕ → ℝ) (var : ℕ → Fin D → ℝ)
    (ls : ℕ → ℝ) (center : Fin D → ℝ) (i : ℕ) {N : ℕ}
    (X1 : Fin N → Fin D → ℝ) (n : Fin N) : ℝ :=
  let l2 : ℝ := ls i ^ 2
  (mag i ^ 2 * twopiFull D * Real.sqrt (∏ d, var i d) * Real.sqrt l2 ^ D)
    * Real.exp (-(1/2) * ∑ d, (X1 n d - center d) ^ 2 * l2)

/-! ## Likelihood predictive pipeline (src/mogptk/gpr/likelihood.py)

`Likelihood.predict(mu, var, ci, sigma, n, X)` is embedded per data point (the
torch code applies it columnwise and independently to every data point; the
concrete likelihoods' `mean` and `sample` act elementwise).  The Gauss-Hermite
nodes and weights (already rescaled by `sqrt(2)` and `1/sqrt(pi)`) are passed
as lists, and the Monte-Carlo step is made deterministic by passing the `n`
standard-normal draws `z` that `torch.distributions.Normal(...).sample([n])`
would consume: the torch sampler returns `loc + scale * z`, and the code calls
`Normal(mu, var)`, whose second argument is the *scale*. -/

open Classical in
/-- Python's `int(...)` applied to a real: truncation toward zero. -/
noncomputable def pyInt (x : ℝ) : ℤ := if 0 ≤ x then ⌊x⌋ else ⌈x⌉

/-- `GaussHermiteQuadrature.__call__(mu, var, F)` for one data point:
`F(mu + sqrt(var)·t) @ w`. -/
noncomputable def quadrature (ts ws : List ℝ) (F : ℝ → ℝ) (mu var : ℝ) : ℝ :=
  ((ts.zip ws).map (fun p => F (mu + Real.sqrt var * p.1) * p.2)).sum

/-- `samples_y.sort(dim=0)` per data point: ascending sort of the draws. -/
noncomputable def sortAsc (l : List ℝ) : List ℝ :=
  l.insertionSort (fun a b => a ≤ b)

/-- `Likelihood.predict(mu, var, ci, n)` from src/mogptk/gpr/likelihood.py on
the confidence-interval path, for one data point: the quadrature point
prediction, then `samples_f = Normal(mu, var).sample([n])` (note: `var` is
passed where torch expects the scale), `samples_y = self.sample(samples_f)`,
ascending sort, and the order statistics at `int(ci*n + 0.5)`. -/
noncomputable def predict_ci (meanF sampleF : ℝ → ℝ) (ts ws : List ℝ)
    (mu var : ℝ) (ci : ℝ × ℝ) (n : ℕ) (z : List ℝ) : ℝ × ℝ × ℝ :=
  let mu2 := quadrature ts ws meanF mu var
  let samples_f := z.map (fun s => mu2 + var * s)
  let samples_y := samples_f.map sampleF
  let sorted := sortAsc samples_y
  (mu2, sorted.getD (pyInt (ci.1 * n + 1/2)).toNat 0,
    sorted.getD (pyInt (ci.2 * n + 1/2)).toNat 0)

/-- Follows the specification's words, for comparison with `predict_ci`: "draw
`n` latent samples from N(mu,var), push through `sample`, sort ascending, and
pick the empirical quantiles at indices `round(ci[0]·n)` and `round(ci[1]·n)`",
with the same deterministic draws `z` (a sample of N(mu,var) is
`mu + sqrt(var)·z`). -/
noncomputable def predict_ci_spec (meanF sampleF : ℝ → ℝ) (ts ws : List ℝ)
    (mu var : ℝ) (ci : ℝ × ℝ) (n : ℕ) (z : List ℝ) : ℝ × ℝ × ℝ :=
  let mu2 := quadrature ts ws meanF mu var
  let samples_f := z.map (fun s => mu + Real.sqrt var * s)
  let samples_y := samples_f.map sampleF
  let sorted := sortAsc samples_y
  (mu2, sorted.getD (round (ci.1 * n)).toNat 0,
    sorted.getD (round (ci.2 * n)).toNat 0)

/-- The five link functions of src/mogptk/gpr/likelihood.py as a closed
enumeration (the code compares them by function identity, e.g.
`self.link != inv_probit`). -/
inductive LinkFn
  | ident
  | square
  | expLink
  | invProbit
  | logistic
deriving DecidableEq

/-- Evaluation of a link function; `erf` is the Gauss error function of the
numerics backend, passed as an opaque parameter (`inv_probit` adds the
`jitter = 1e-3` clamping of the source). -/
noncomputable def linkEval (erf : ℝ → ℝ) : LinkFn → ℝ → ℝ
  | .ident, x => x
  | .square, x => x ^ 2
  | .expLink, x => Real.exp x
  | .invProbit, x =>
      (1/2) * (1 + erf (x / Real.sqrt 2)) * (1 - 2 * (1/1000)) + 1/1000
  | .logistic, x => 1 / (1 + Real.exp (-x))

/-- `BernoulliLikelihood.sample(f, X)`: `return f` — the latent values are
returned unchanged, no Bernoulli draw is made. -/
def bernoulli_sample (f : ℝ) : ℝ := f

/-- `BernoulliLikelihood.mean(f)` is `self.link(f)`. -/
noncomputable def bernoulli_mean (erf : ℝ → ℝ) (link : LinkFn) (f : ℝ) : ℝ :=
  linkEval erf link f

/-- `BernoulliLikelihood.predict(mu, var, ci, n)` from
src/mogptk/gpr/likelihood.py, per data point, with `ci` given: the closed
probit form when `link == inv_probit`, otherwise the base-class Monte-Carlo
path. -/
noncomputable def bernoulli_predict (erf : ℝ → ℝ) (link : LinkFn)
    (ts ws : List ℝ) (mu var : ℝ) (ci : ℝ × ℝ) (n : ℕ) (z : List ℝ) :
    ℝ × ℝ × ℝ :=
  if link = LinkFn.invProbit then
    let p := linkEval erf LinkFn.invProbit (mu / Real.sqrt (1 + var))
    (p, p, p)
  else
    predict_ci (bernoulli_mean erf link) bernoulli_sample ts ws mu var ci n z

/-- Follows the claim's words (for comparison with `umosm_Ksub`): the MOSM
cross-channel formula of `mosm_Ksub` with the magnitude product
`magnitude[i]*magnitude[j]` replaced by a supplied value `magij`. -/
noncomputable def mosm_cross_sub (D : ℕ) (magij : ℝ)
    (mean var delay : ℕ → Fin D → ℝ) (phase : ℕ → ℝ) (i j : ℕ) {N M : ℕ}
    (X1 : Fin N → Fin D → ℝ) (X2 : Fin M → Fin D → ℝ) (n : Fin N) (m : Fin M) : ℝ :=
  let invv : Fin D → ℝ := fun d => 1 / (var i d + var j d)
  let dm : Fin D → ℝ := fun d => mean i d - mean j d
  let mg : ℝ := magij * Real.exp (-Real.pi ^ 2 * ∑ d, dm d * (invv d * dm d))
  let mean2 : Fin D → ℝ := fun d => invv d * (var i d * mean j d + var j d * mean i d)
  let var2 : Fin D → ℝ := fun d => 2 * var i d * invv d * var j d
  let dl : Fin D → ℝ := fun d => delay i d - delay j d
  let ph : ℝ := phase i - phase j
  (mg * twopiHalf D * Real.sqrt (∏ d, var2 d))
    * Real.exp (-(1/2) * ∑ d, (kdist X1 X2 n m d + dl d) ^ 2 * var2 d)
    * Real.cos (2 * Real.pi * ((∑ d, (kdist X1 X2 n m d + dl d) * mean2 d) + ph))

/-- Follows the claim's words (for comparison with `mohsm_Ksub`): the MOSM
same-channel block `magnitude²·(2π)^{D/2}·√∏variance·exp(−½τᵀVτ)·cos(2πτᵀmean)`
multiplied by the Gaussian envelope `exp(−½(avg−center)²·lengthscale)` in the
average position (with the code's envelope rate, the squared lengthscale
parameter). -/
noncomputable def mohsm_same_claimed (D : ℕ) (mag : ℕ → ℝ)
    (mean var : ℕ → Fin D → ℝ) (ls : ℕ → ℝ) (center : Fin D → ℝ) (i : ℕ)
    {N M : ℕ} (X1 : Fin N → Fin D → ℝ) (X2 : Fin M → Fin D → ℝ)
    (n : Fin N) (m : Fin M) : ℝ :=
  (mag i ^ 2 * twopiHalf D * Real.sqrt (∏ d, var i d))
    * Real.exp (-(1/2) * ∑ d, kdist X1 X2 n m d ^ 2 * var i d)
    * Real.cos (2 * Real.pi * ∑ d, kdist X1 X2 n m d * mean i d)
    * Real.exp (-(1/2) * ∑ d, (kavg X1 X2 n m d - center d) ^ 2 * ls i ^ 2)

/-! ## Theorems -/

theorem split_one_lengths (N : List ℕ) (X : QMat) (h : X.length = N.sum) :
    (split_one N X).map List.length = N := by
  induction N generalizing X with
  | nil => simp [split_one]
  | cons n N ih =>
      simp only [split_one, List.map_cons, List.sum_cons] at *
      have h1 : (List.take n X).length = n := by
        rw [List.length_take]
        omega
      have h2 : (List.drop n X).length = N.sum := by
        rw [List.length_drop]
        omega
      rw [h1, ih (X.drop n) h2]

theorem split_one_flatten (N : List ℕ) (X : QMat) (h : X.length = N.sum) :
    (split_one N X).flatten = X := by
  induction N generalizing X with
  | nil =>
      simp only [List.sum_nil, List.length_eq_zero] at h
      simp [split_one, h]
  | cons n N ih =>
      simp only [split_one, List.flatten_cons, List.sum_cons] at *
      have h2 : (List.drop n X).length = N.sum := by
        rw [List.length_drop]
        omega
      rw [ih (X.drop n) h2, List.take_append_drop]

theorem flatten_split_one (N : List ℕ) (ps : List QMat) (h : ps.map List.length = N) :
    split_one N ps.flatten = ps := by
  induction ps generalizing N with
  | nil => simp_all [split_one]
  | cons p ps ih =>
      subst h
      simp only [List.map_cons, List.flatten_cons, split_one]
      rw [List.take_left, List.drop_left, ih (ps.map List.length) rfl]

theorem tagChannels_eq_flatten (c : ℕ) (ps : List QMat) :
    tagChannels c ps = (tagPieces c ps).flatten := by
  induction ps generalizing c with
  | nil => rfl
  | cons p ps ih => simp [tagChannels, tagPieces, ih]

theorem tagPieces_lengths (c : ℕ) (ps : List QMat) :
    (tagPieces c ps).map List.length = ps.map List.length := by
  induction ps generalizing c with
  | nil => rfl
  | cons p ps ih => simp [tagPieces, ih]

theorem tagPieces_detag (c : ℕ) (ps : List QMat) :
    (tagPieces c ps).map (List.map List.tail) = ps := by
  induction ps generalizing c with
  | nil => rfl
  | cons p ps ih =>
      simp only [tagPieces, List.map_cons, ih, List.map_map]
      congr 1
      have : (List.tail ∘ fun row => ((c : ℚ)) :: row) = id := by
        funext row
        rfl
      rw [this, List.map_id]

theorem tagPieces_getD (c i : ℕ) (ps : List QMat) (hi : i < ps.length) :
    (tagPieces c ps).getD i [] =
      (ps.getD i []).map (fun row => (((c + i : ℕ) : ℚ)) :: row) := by
  induction ps generalizing c i with
  | nil => simp at hi
  | cons p ps ih =>
      cases i with
      | zero => simp [tagPieces]
      | succ i =>
          simp only [tagPieces, List.getD_cons_succ]
          rw [ih (c + 1) i (by simpa using hi)]
          have h3 : c + 1 + i = c + (i + 1) := by omega
          rw [h3]

theorem scatterRows_length {α : Type} (res : List α) (idx : List ℕ) (vals : List α) :
    (scatterRows res idx vals).length = res.length := by
  induction idx generalizing res vals with
  | nil => cases vals <;> rfl
  | cons i idx ih =>
      cases vals with
      | nil => rfl
      | cons v vals => rw [scatterRows, ih, List.length_set]

theorem scatterRows_getD_notMem {α : Type} (res : List α) (idx : List ℕ)
    (vals : List α) (n : ℕ) (d : α) (h : n ∉ idx) :
    (scatterRows res idx vals).getD n d = res.getD n d := by
  induction idx generalizing res vals with
  | nil => cases vals <;> rfl
  | cons i idx ih =>
      cases vals with
      | nil => rfl
      | cons v vals =>
          rw [scatterRows, ih _ _ (fun hm => h (List.mem_cons_of_mem i hm))]
          have hne : i ≠ n := fun he => h (he ▸ List.mem_cons_self i idx)
          simp [List.getD_eq_getElem?_getD, List.getElem?_set_ne hne]

theorem scatterRows_getD_mem {α : Type} (res : List α) (idx : List ℕ)
    (vals : List α) (n : ℕ) (d : α) (hnd : idx.Nodup)
    (hlen : vals.length = idx.length) (hmem : n ∈ idx) (hb : n < res.length) :
    (scatterRows res idx vals).getD n d = vals.getD (idx.indexOf n) d := by
  induction idx generalizing res vals with
  | nil => simp at hmem
  | cons i idx ih =>
      cases vals with
      | nil => simp at hlen
      | cons v vals =>
          rw [scatterRows]
          rcases List.nodup_cons.mp hnd with ⟨hi, hnd2⟩
          by_cases hin : n = i
          · subst hin
            rw [scatterRows_getD_notMem _ _ _ _ _ hi, List.indexOf_cons_self,
              List.getD_cons_zero]
            simp [List.getD_eq_getElem?_getD, List.getElem?_set_self, hb]
          · have hmem2 : n ∈ idx := by
              rcases List.mem_cons.mp hmem with h | h
              · exact absurd h hin
              · exact h
            rw [ih (res.set i v) vals hnd2 (by simpa using hlen) hmem2
              (by rw [List.length_set]; exact hb)]
            rw [List.indexOf_cons_ne _ (fun he => hin he.symm), List.getD_cons_succ]

theorem mem_ridx (X : QMat) (j n : ℕ) :
    n ∈ ridx X j ↔ n < X.length ∧ chanOf (X.getD n []) = j := by
  simp [ridx, List.mem_filter, List.mem_range]

theorem ridx_nodup (X : QMat) (j : ℕ) : (ridx X j).Nodup :=
  (List.nodup_range _).filter _

theorem dispatch_foldl_getD {α : Type} (X : QMat) (g : ℕ → List ℕ → List α)
    (hg : ∀ i idx, (g i idx).length = idx.length) (n : ℕ) (d : α)
    (hn : n < X.length) (L : List ℕ) :
    ∀ acc : List α, acc.length = X.length →
    ((L.foldl (fun acc i => scatterRows acc (ridx X i) (g i (ridx X i))) acc).getD n d
      = if chanOf (X.getD n []) ∈ L
        then (g (chanOf (X.getD n [])) (ridx X (chanOf (X.getD n [])))).getD
          ((ridx X (chanOf (X.getD n []))).indexOf n) d
        else acc.getD n d) := by
  induction L with
  | nil => intro acc hacc; simp
  | cons i L ih =>
      intro acc hacc
      rw [List.foldl_cons]
      rw [ih (scatterRows acc (ridx X i) (g i (ridx X i)))
        (by rw [scatterRows_length]; exact hacc)]
      simp only [List.mem_cons]
      by_cases hmem : chanOf (X.getD n []) ∈ L
      · rw [if_pos hmem, if_pos (Or.inr hmem)]
      · by_cases hci : chanOf (X.getD n []) = i
        · have hnr : n ∈ ridx X i := (mem_ridx X i n).mpr ⟨hn, hci⟩
          rw [if_neg hmem, if_pos (Or.inl hci),
            scatterRows_getD_mem _ _ _ _ _ (ridx_nodup X i) (hg i _) hnr
              (by rw [hacc]; exact hn)]
          rw [hci]
        · have hnr : n ∉ ridx X i := fun hm => hci ((mem_ridx X i n).mp hm).2
          rw [if_neg hmem, scatterRows_getD_notMem _ _ _ _ _ hnr,
            if_neg (by rw [not_or]; exact ⟨hci, hmem⟩)]

theorem dispatch_getD {α : Type} (k : ℕ) (X : QMat) (g : ℕ → List ℕ → List α)
    (init : List α) (hg : ∀ i idx, (g i idx).length = idx.length)
    (hinit : init.length = X.length) (n : ℕ) (d : α) (hn : n < X.length)
    (hk : chanOf (X.getD n []) < k) :
    (dispatch k X g init).getD n d
      = (g (chanOf (X.getD n [])) (ridx X (chanOf (X.getD n [])))).getD
          ((ridx X (chanOf (X.getD n []))).indexOf n) d := by
  rw [dispatch, dispatch_foldl_getD X g hg n d hn _ init hinit,
    if_pos (List.mem_range.mpr hk)]

theorem ridx_cons (r : List ℚ) (X : QMat) (j : ℕ) :
    ridx (r :: X) j
      = (if chanOf r = j then [0] else []) ++ (ridx X j).map Nat.succ := by
  have h1 : List.filter (fun n => decide (chanOf ((r :: X).getD n []) = j))
        ((List.range X.length).map Nat.succ)
      = ((List.range X.length).filter
          (fun n => decide (chanOf (X.getD n []) = j))).map Nat.succ := by
    rw [List.filter_map]
    have h2 : ((fun n => decide (chanOf ((r :: X).getD n []) = j)) ∘ Nat.succ)
        = fun n => decide (chanOf (X.getD n []) = j) := by
      funext m
      simp [Function.comp, List.getD_cons_succ]
    rw [h2]
  simp only [List.getD_eq_getElem?_getD] at h1
  by_cases hr : chanOf r = j
  · simp only [ridx, List.length_cons, List.range_succ_eq_map, List.filter_cons]
    simp [hr]
    exact h1
  · simp only [ridx, List.length_cons, List.range_succ_eq_map, List.filter_cons]
    simp [hr]
    exact h1

theorem gatherRows_cons_succ {α : Type} (a : α) (v : List α) (d : α)
    (idx : List ℕ) :
    gatherRows (a :: v) d (idx.map Nat.succ) = gatherRows v d idx := by
  simp [gatherRows, List.map_map, Function.comp, List.getD_cons_succ]

theorem chanRows_cons {α : Type} (i : ℕ) (r : List ℚ) (X : QMat) (a : α)
    (v : List α) :
    chanRows i (r :: X) (a :: v)
      = (if chanOf r = i then [a] else []) ++ chanRows i X v := by
  by_cases hr : chanOf r = i
  · simp [chanRows, List.filter_cons, hr]
  · simp [chanRows, List.filter_cons, hr]

theorem gather_ridx {α : Type} (X : QMat) (v : List α) (d : α) (j : ℕ)
    (h : v.length = X.length) : gatherRows v d (ridx X j) = chanRows j X v := by
  induction X generalizing v with
  | nil =>
      have hv : v = [] := List.length_eq_zero.mp h
      subst hv
      rfl
  | cons r X ih =>
      cases v with
      | nil => simp at h
      | cons a v =>
          have h2 : v.length = X.length := by simpa using h
          rw [ridx_cons, gatherRows, List.map_append, ← gatherRows, ← gatherRows,
            gatherRows_cons_succ, ih v h2, chanRows_cons]
          by_cases hr : chanOf r = j
          · simp [gatherRows, hr]
          · simp [gatherRows, hr]

theorem filter_range_indexOf (p : ℕ → Bool) (len n : ℕ) (hn : n < len)
    (hp : p n = true) :
    ((List.range len).filter p).indexOf n = ((List.range n).filter p).length := by
  induction len with
  | zero => omega
  | succ l ih =>
      rw [List.range_succ, List.filter_append]
      by_cases hnl : n < l
      · rw [List.indexOf_append_of_mem
          (by simp [List.mem_filter, List.mem_range, hnl, hp])]
        exact ih hnl
      · have hne : n = l := by omega
        subst hne
        rw [List.indexOf_append_of_not_mem
          (by simp [List.mem_filter, List.mem_range])]
        simp [List.filter_cons, hp]

theorem ridx_indexOf (X : QMat) (n : ℕ) (hn : n < X.length) :
    (ridx X (chanOf (X.getD n []))).indexOf n = chanRank X n := by
  rw [ridx, chanRank, filter_range_indexOf _ _ _ hn (by simp)]

/-! ## Claim theorems -/

/-- C2, counterexample: split-merge-split is not the identity on per-channel
arrays.  With `N = [1]` and the stacked matrix `[[0, 5]]` (channel tag 0,
payload 5), merging the split pieces prepends a fresh channel column, so the
second split returns `[[[0, 0, 5]]]`, not `[[[0, 5]]]`. -/
theorem merge_split_roundtrip_counterexample :
    ¬ (split_one [1] (merge_data (split_one [1] [[(0 : ℚ), 5]])).2
        = split_one [1] [[(0 : ℚ), 5]]) := by decide

/-- C2, amended: `merge_data`/`split_data` are inverses up to the channel-tag
column `merge_data` prepends.  For any partition `N` and stacked `X` with
`ΣN` rows: the recomputed row counts equal `N`; dropping column 0 of the merged
matrix recovers `X`; after split-merge-split, channel `i`'s piece is exactly
the original `i`-th piece with one extra leading column holding `i` (payload
and pre-existing tags unchanged, channel order preserved), so stripping that
column recovers the originals; stacked output (`Y`) matrices round-trip
exactly. -/
theorem merge_split_roundtrip_tagged (N : List ℕ) (X : QMat) (ys : List QMat)
    (hX : X.length = N.sum) (hy : ys.map List.length = N) :
    (merge_data (split_one N X)).1 = N
    ∧ (merge_data (split_one N X)).2.map List.tail = X
    ∧ (∀ i, i < N.length →
        (split_one N (merge_data (split_one N X)).2).getD i []
          = ((split_one N X).getD i []).map (fun row => ((i : ℚ)) :: row))
    ∧ (split_one N (merge_data (split_one N X)).2).map (List.map List.tail)
        = split_one N X
    ∧ split_one N (merge_dataY (split_one N X) ys).2.2 = ys := by
  have hP : (split_one N X).map List.length = N := split_one_lengths N X hX
  have hPlen : (split_one N X).length = N.length := by
    have := congrArg List.length hP
    simpa using this
  have hmerge2 : (merge_data (split_one N X)).2
      = (tagPieces 0 (split_one N X)).flatten := by
    simp [merge_data, tagChannels_eq_flatten]
  have hsplit2 : split_one N (merge_data (split_one N X)).2
      = tagPieces 0 (split_one N X) := by
    rw [hmerge2]
    exact flatten_split_one N _ (by rw [tagPieces_lengths, hP])
  refine ⟨by simp [merge_data, hP], ?_, ?_, ?_, ?_⟩
  · rw [hmerge2, List.map_flatten, tagPieces_detag]
    exact split_one_flatten N X hX
  · intro i hi
    rw [hsplit2, tagPieces_getD 0 i _ (by rw [hPlen]; exact hi)]
    simp
  · rw [hsplit2, tagPieces_detag]
  · exact flatten_split_one N ys hy

/-- C2, witness: the amended round trip at `N = [1]`, `X = [[0, 5]]`,
`ys = [[[7]]]`. -/
theorem merge_split_roundtrip_tagged_inst :
    ([[(0 : ℚ), 5]] : QMat).length = List.sum [1]
    ∧ ([[[(7 : ℚ)]]] : List QMat).map List.length = [1]
    ∧ (merge_data (split_one [1] [[(0 : ℚ), 5]])).2.map List.tail
        = [[(0 : ℚ), 5]] :=
  ⟨by decide, by decide,
    (merge_split_roundtrip_tagged [1] [[(0 : ℚ), 5]] [[[(7 : ℚ)]]]
      (by decide) (by decide)).2.1⟩

/-- C7: StudentT's moments follow the degrees-of-freedom regimes exactly:
`mean` is all-NaN when `dof ≤ 1` and `f` otherwise; `variance` is NaN when
`dof ≤ 2` and `scale²·dof/(dof−2)` otherwise, and in particular at `dof = 3`
it is `3·scale²`; NaN is produced as a value, not raised, unrounded and
unclamped. -/
theorem studentT_moment_regimes (dof scale : ℚ) (f : QMat) :
    (dof ≤ 1 → studentT_mean dof f
      = f.map (List.map (fun _ => (none : Option ℚ))))
    ∧ (1 < dof → studentT_mean dof f = f.map (List.map some))
    ∧ (dof ≤ 2 → studentT_variance dof scale = none)
    ∧ (2 < dof → studentT_variance dof scale
      = some (scale ^ 2 * dof / (dof - 2)))
    ∧ studentT_variance 3 scale = some (3 * scale ^ 2) := by
  refine ⟨?_, ?_, ?_, ?_, ?_⟩
  · intro h
    simp [studentT_mean, h]
  · intro h
    simp [studentT_mean, not_le.mpr h]
  · intro h
    simp [studentT_variance, h]
  · intro h
    simp [studentT_variance, not_le.mpr h]
  · have h3 : ¬ ((3 : ℚ) ≤ 2) := by norm_num
    simp only [studentT_variance, if_neg h3]
    norm_num
    ring

/-- C7, witness: the regimes at `dof = 1` (all-NaN mean) and `dof = 3`
(finite variance), `scale = 2`. -/
theorem studentT_moment_regimes_inst :
    ((1 : ℚ) ≤ 1 ∧ studentT_mean 1 [[5]]
      = ([[(5 : ℚ)]] : QMat).map (List.map (fun _ => (none : Option ℚ))))
    ∧ ((2 : ℚ) < 3 ∧ studentT_variance 3 2 = some (2 ^ 2 * 3 / (3 - 2))) :=
  ⟨⟨by norm_num, (studentT_moment_regimes 1 2 [[5]]).1 (by norm_num)⟩,
   ⟨by norm_num, (studentT_moment_regimes 3 2 [[5]]).2.2.2.1 (by norm_num)⟩⟩

theorem chanOf_natCast (c : ℕ) (row : List ℚ) (h : row.headD 0 = (c : ℚ)) :
    chanOf row = c := by
  rw [chanOf, h]
  simp

/-- C8: every primary operation of `MultiOutputLikelihood` applies likelihood
`i` exactly to the rows whose channel index equals `i` (the in-order channel-i
subsequence `chanRows`) and places each result back at that row's original
position (`chanRank`, the row's rank within its channel); the output at any
row therefore depends only on that row's own channel's likelihood and inputs.
`variational_expectation` sums the per-channel applications.  Hypotheses: the
channel column holds natural numbers `< k` and the per-channel operations are
row-count preserving. -/
theorem mol_dispatch_partition :
    (∀ (lp : ℕ → List ℚ → QMat → QMat) (k : ℕ) (X : QMat) (y : List ℚ)
      (f : QMat),
      (∀ row ∈ X, ∃ c : ℕ, c < k ∧ row.headD 0 = (c : ℚ)) →
      (∀ i ys fs, (lp i ys fs).length = fs.length) →
      y.length = X.length → f.length = X.length →
      ∀ n, n < X.length →
        (mol_log_prob lp k X y f).getD n []
          = (lp (chanOf (X.getD n [])) (chanRows (chanOf (X.getD n [])) X y)
              (chanRows (chanOf (X.getD n [])) X f)).getD (chanRank X n) [])
    ∧ (∀ (ve : ℕ → List ℚ → List ℚ → List ℚ → ℚ) (k : ℕ) (X : QMat)
      (y mu var : List ℚ),
      y.length = X.length → mu.length = X.length → var.length = X.length →
      mol_variational_expectation ve k X y mu var
        = ((List.range k).map
            (fun i => ve i (chanRows i X y) (chanRows i X mu)
              (chanRows i X var))).sum)
    ∧ (∀ (mn : ℕ → QMat → QMat) (k : ℕ) (X : QMat) (f : QMat),
      (∀ row ∈ X, ∃ c : ℕ, c < k ∧ row.headD 0 = (c : ℚ)) →
      (∀ i fs, (mn i fs).length = fs.length) → f.length = X.length →
      ∀ n, n < X.length →
        (mol_mean mn k X f).getD n []
          = (mn (chanOf (X.getD n []))
              (chanRows (chanOf (X.getD n [])) X f)).getD (chanRank X n) [])
    ∧ (∀ (vr : ℕ → QMat → QMat) (k : ℕ) (X : QMat) (f : QMat),
      (∀ row ∈ X, ∃ c : ℕ, c < k ∧ row.headD 0 = (c : ℚ)) →
      (∀ i fs, (vr i fs).length = fs.length) → f.length = X.length →
      ∀ n, n < X.length →
        (mol_variance vr k X f).getD n []
          = (vr (chanOf (X.getD n []))
              (chanRows (chanOf (X.getD n [])) X f)).getD (chanRank X n) [])
    ∧ (∀ (sm : ℕ → QMat → QMat) (k : ℕ) (X : QMat) (f : QMat),
      (∀ row ∈ X, ∃ c : ℕ, c < k ∧ row.headD 0 = (c : ℚ)) →
      (∀ i fs, (sm i fs).length = fs.length) → f.length = X.length →
      ∀ n, n < X.length →
        (mol_sample sm k X f).getD n []
          = (sm (chanOf (X.getD n []))
              (chanRows (chanOf (X.getD n [])) X f)).getD (chanRank X n) [])
    ∧ (∀ (pr : ℕ → List ℚ → List ℚ → List ℚ × List ℚ × List ℚ) (k : ℕ)
      (X : QMat) (mu var : List ℚ),
      (∀ row ∈ X, ∃ c : ℕ, c < k ∧ row.headD 0 = (c : ℚ)) →
      (∀ i mus vars, (pr i mus vars).1.length = mus.length) →
      (∀ i mus vars, (pr i mus vars).2.1.length = mus.length) →
      (∀ i mus vars, (pr i mus vars).2.2.length = mus.length) →
      mu.length = X.length → var.length = X.length →
      ∀ n, n < X.length →
        (mol_predict pr k X mu var).1.getD n 0
          = (pr (chanOf (X.getD n [])) (chanRows (chanOf (X.getD n [])) X mu)
              (chanRows (chanOf (X.getD n [])) X var)).1.getD (chanRank X n) 0
        ∧ (mol_predict pr k X mu var).2.1.getD n 0
          = (pr (chanOf (X.getD n [])) (chanRows (chanOf (X.getD n [])) X mu)
              (chanRows (chanOf (X.getD n [])) X var)).2.1.getD (chanRank X n) 0
        ∧ (mol_predict pr k X mu var).2.2.getD n 0
          = (pr (chanOf (X.getD n [])) (chanRows (chanOf (X.getD n [])) X mu)
              (chanRows (chanOf (X.getD n [])) X var)).2.2.getD (chanRank X n) 0) := by
  have hchan : ∀ (k : ℕ) (X : QMat),
      (∀ row ∈ X, ∃ c : ℕ, c < k ∧ row.headD 0 = (c : ℚ)) →
      ∀ n, n < X.length → chanOf (X.getD n []) < k := by
    intro k X hval n hn
    have hmem : X.getD n [] ∈ X := by
      rw [List.getD_eq_getElem _ _ hn]
      exact List.getElem_mem hn
    obtain ⟨c, hck, hhead⟩ := hval (X.getD n []) hmem
    rw [chanOf_natCast c _ hhead]
    exact hck
  refine ⟨?_, ?_, ?_, ?_, ?_, ?_⟩
  · intro lp k X y f hval hlen hy hf n hn
    rw [mol_log_prob, dispatch_getD k X _ _
      (fun i idx => by rw [hlen]; simp [gatherRows])
      (by simp [hf]) n [] hn (hchan k X hval n hn)]
    rw [gather_ridx X y 0 _ hy, gather_ridx X f [] _ hf, ridx_indexOf X n hn]
  · intro ve k X y mu var hy hmu hvar
    rw [mol_variational_expectation]
    congr 1
    apply List.map_congr_left
    intro i _
    rw [gather_ridx X y 0 i hy, gather_ridx X mu 0 i hmu,
      gather_ridx X var 0 i hvar]
  · intro mn k X f hval hlen hf n hn
    rw [mol_mean, dispatch_getD k X _ _
      (fun i idx => by rw [hlen]; simp [gatherRows])
      (by simp [hf]) n [] hn (hchan k X hval n hn)]
    rw [gather_ridx X f [] _ hf, ridx_indexOf X n hn]
  · intro vr k X f hval hlen hf n hn
    rw [mol_variance, dispatch_getD k X _ _
      (fun i idx => by rw [hlen]; simp [gatherRows])
      (by simp [hf]) n [] hn (hchan k X hval n hn)]
    rw [gather_ridx X f [] _ hf, ridx_indexOf X n hn]
  · intro sm k X f hval hlen hf n hn
    rw [mol_sample, dispatch_getD k X _ _
      (fun i idx => by rw [hlen]; simp [gatherRows])
      hf n [] hn (hchan k X hval n hn)]
    rw [gather_ridx X f [] _ hf, ridx_indexOf X n hn]
  · intro pr k X mu var hval hlen1 hlen2 hlen3 hmu hvar n hn
    refine ⟨?_, ?_, ?_⟩
    · rw [mol_predict, dispatch_getD k X _ _
        (fun i idx => by rw [hlen1]; simp [gatherRows])
        (by simp [hmu]) n 0 hn (hchan k X hval n hn)]
      rw [gather_ridx X mu 0 _ hmu, gather_ridx X var 0 _ hvar,
        ridx_indexOf X n hn]
    · rw [mol_predict, dispatch_getD k X _ _
        (fun i idx => by rw [hlen2]; simp [gatherRows])
        (by simp [hmu]) n 0 hn (hchan k X hval n hn)]
      rw [gather_ridx X mu 0 _ hmu, gather_ridx X var 0 _ hvar,
        ridx_indexOf X n hn]
    · rw [mol_predict, dispatch_getD k X _ _
        (fun i idx => by rw [hlen3]; simp [gatherRows])
        (by simp [hmu]) n 0 hn (hchan k X hval n hn)]
      rw [gather_ridx X mu 0 _ hmu, gather_ridx X var 0 _ hvar,
        ridx_indexOf X n hn]

/-- C8, witness: the `mean` dispatch at one channel, `X = [[0]]`, `f = [[1]]`,
with the identity per-channel operation. -/
theorem mol_dispatch_partition_inst :
    (mol_mean (fun _ fs => fs) 1 [[(0 : ℚ)]] [[(1 : ℚ)]]).getD 0 []
      = ((fun (_ : ℕ) (fs : QMat) => fs) (chanOf (([[(0 : ℚ)]] : QMat).getD 0 []))
          (chanRows (chanOf (([[(0 : ℚ)]] : QMat).getD 0 [])) [[(0 : ℚ)]]
            [[(1 : ℚ)]])).getD (chanRank [[(0 : ℚ)]] 0) [] :=
  mol_dispatch_partition.2.2.1 (fun _ fs => fs) 1 [[(0 : ℚ)]] [[(1 : ℚ)]]
    (by
      intro row hr
      simp only [List.mem_singleton] at hr
      subst hr
      exact ⟨0, Nat.zero_lt_one, by norm_num⟩)
    (fun _ _ => rfl) rfl 0 (by decide)

theorem LLt_symm (k : ℕ) (L : ℕ → ℕ → ℝ) (i j : ℕ) :
    LLt k L j i = LLt k L i j :=
  Finset.sum_congr rfl (fun _ _ => mul_comm _ _)

theorem mosm_Ksub_symm (D : ℕ) (mag : ℕ → ℝ) (mean var delay : ℕ → Fin D → ℝ)
    (phase : ℕ → ℝ) (i j : ℕ) {N M : ℕ} (X1 : Fin N → Fin D → ℝ)
    (X2 : Fin M → Fin D → ℝ) (n : Fin N) (m : Fin M) :
    mosm_Ksub D mag mean var delay phase i j X1 X2 n m
      = mosm_Ksub D mag mean var delay phase j i X2 X1 m n := by
  by_cases hij : i = j
  · subst hij
    simp only [mosm_Ksub, eq_self_iff_true, if_true, kdist]
    have hexp : ∑ d, (X2 m d - X1 n d) ^ 2 * var i d
        = ∑ d, (X1 n d - X2 m d) ^ 2 * var i d :=
      Finset.sum_congr rfl (fun d _ => by ring)
    have hcos : ∑ d, (X2 m d - X1 n d) * mean i d
        = -∑ d, (X1 n d - X2 m d) * mean i d := by
      rw [← Finset.sum_neg_distrib]
      exact Finset.sum_congr rfl (fun d _ => by ring)
    rw [hexp, hcos, mul_neg, Real.cos_neg]
  · simp only [mosm_Ksub, if_neg hij, if_neg (Ne.symm hij), kdist]
    have h1 : mag j * mag i = mag i * mag j := by ring
    have h2 : ∑ d, (mean j d - mean i d)
          * (1 / (var j d + var i d) * (mean j d - mean i d))
        = ∑ d, (mean i d - mean j d)
          * (1 / (var i d + var j d) * (mean i d - mean j d)) :=
      Finset.sum_congr rfl (fun d _ => by ring)
    have h3 : ∏ d, 2 * var j d * (1 / (var j d + var i d)) * var i d
        = ∏ d, 2 * var i d * (1 / (var i d + var j d)) * var j d :=
      Finset.prod_congr rfl (fun d _ => by ring)
    have h4 : ∑ d, (X2 m d - X1 n d + (delay j d - delay i d)) ^ 2
          * (2 * var j d * (1 / (var j d + var i d)) * var i d)
        = ∑ d, (X1 n d - X2 m d + (delay i d - delay j d)) ^ 2
          * (2 * var i d * (1 / (var i d + var j d)) * var j d) :=
      Finset.sum_congr rfl (fun d _ => by ring)
    have h5 : (∑ d, (X2 m d - X1 n d + (delay j d - delay i d))
          * (1 / (var j d + var i d) * (var j d * mean i d + var i d * mean j d)))
          + (phase j - phase i)
        = -((∑ d, (X1 n d - X2 m d + (delay i d - delay j d))
          * (1 / (var i d + var j d) * (var i d * mean j d + var j d * mean i d)))
          + (phase i - phase j)) := by
      rw [neg_add, ← Finset.sum_neg_distrib]
      congr 1
      · exact Finset.sum_congr rfl (fun d _ => by ring)
      · ring
    rw [h1, h2, h3, h4, h5, mul_neg, Real.cos_neg]

theorem umosm_Ksub_symm (D k : ℕ) (L : ℕ → ℕ → ℝ)
    (mean var delay : ℕ → Fin D → ℝ) (phase : ℕ → ℝ) (i j : ℕ) {N M : ℕ}
    (X1 : Fin N → Fin D → ℝ) (X2 : Fin M → Fin D → ℝ) (n : Fin N) (m : Fin M) :
    umosm_Ksub D k L mean var delay phase i j X1 X2 n m
      = umosm_Ksub D k L mean var delay phase j i X2 X1 m n := by
  by_cases hij : i = j
  · subst hij
    simp only [umosm_Ksub, eq_self_iff_true, if_true, kdist]
    have hexp : ∑ d, (X2 m d - X1 n d) ^ 2 * var i d
        = ∑ d, (X1 n d - X2 m d) ^ 2 * var i d :=
      Finset.sum_congr rfl (fun d _ => by ring)
    have hcos : ∑ d, (X2 m d - X1 n d) * mean i d
        = -∑ d, (X1 n d - X2 m d) * mean i d := by
      rw [← Finset.sum_neg_distrib]
      exact Finset.sum_congr rfl (fun d _ => by ring)
    rw [hexp, hcos, mul_neg, Real.cos_neg]
  · simp only [umosm_Ksub, if_neg hij, if_neg (Ne.symm hij), kdist]
    have h1 : LLt k L j i = LLt k L i j := LLt_symm k L i j
    have h2 : ∑ d, (mean j d - mean i d)
          * (1 / (var j d + var i d) * (mean j d - mean i d))
        = ∑ d, (mean i d - mean j d)
          * (1 / (var i d + var j d) * (mean i d - mean j d)) :=
      Finset.sum_congr rfl (fun d _ => by ring)
    have h3 : ∏ d, 2 * var j d * (1 / (var j d + var i d)) * var i d
        = ∏ d, 2 * var i d * (1 / (var i d + var j d)) * var j d :=
      Finset.prod_congr rfl (fun d _ => by ring)
    have h4 : ∑ d, (X2 m d - X1 n d + (delay j d - delay i d)) ^ 2
          * (2 * var j d * (1 / (var j d + var i d)) * var i d)
        = ∑ d, (X1 n d - X2 m d + (delay i d - delay j d)) ^ 2
          * (2 * var i d * (1 / (var i d + var j d)) * var j d) :=
      Finset.sum_congr rfl (fun d _ => by ring)
    have hS : ∑ d, (X2 m d - X1 n d + (delay j d - delay i d))
          * (1 / (var j d + var i d) * (var j d * mean i d + var i d * mean j d))
        = -∑ d, (X1 n d - X2 m d + (delay i d - delay j d))
          * (1 / (var i d + var j d) * (var i d * mean j d + var j d * mean i d)) := by
      rw [← Finset.sum_neg_distrib]
      exact Finset.sum_congr rfl (fun d _ => by ring)
    have h5 : 2 * Real.pi * (∑ d, (X2 m d - X1 n d + (delay j d - delay i d))
          * (1 / (var j d + var i d) * (var j d * mean i d + var i d * mean j d)))
          + (phase j - phase i)
        = -(2 * Real.pi * (∑ d, (X1 n d - X2 m d + (delay i d - delay j d))
          * (1 / (var i d + var j d) * (var i d * mean j d + var j d * mean i d)))
          + (phase i - phase j)) := by
      rw [hS]
      ring
    rw [h1, h2, h3, h4, h5, Real.cos_neg]

theorem csm_Ksub_symm (D Rq : ℕ) (amp : ℕ → Fin Rq → ℝ) (mean var : Fin D → ℝ)
    (shift : ℕ → Fin Rq → ℝ) (i j : ℕ) {N M : ℕ} (X1 : Fin N → Fin D → ℝ)
    (X2 : Fin M → Fin D → ℝ) (n : Fin N) (m : Fin M) :
    csm_Ksub D Rq amp mean var shift i j X1 X2 n m
      = csm_Ksub D Rq amp mean var shift j i X2 X1 m n := by
  have hexp : ∑ d, kdist X2 X1 m n d ^ 2 * var d
      = ∑ d, kdist X1 X2 n m d ^ 2 * var d :=
    Finset.sum_congr rfl (fun d _ => by simp only [kdist]; ring)
  have hS : ∑ d, kdist X2 X1 m n d * mean d
      = -∑ d, kdist X1 X2 n m d * mean d := by
    rw [← Finset.sum_neg_distrib]
    exact Finset.sum_congr rfl (fun d _ => by simp only [kdist]; ring)
  by_cases hij : i = j
  · subst hij
    simp only [csm_Ksub, eq_self_iff_true, if_true]
    refine Finset.sum_congr rfl (fun r _ => ?_)
    rw [hexp, hS, mul_neg, Real.cos_neg]
  · simp only [csm_Ksub, if_neg hij, if_neg (Ne.symm hij)]
    refine Finset.sum_congr rfl (fun r _ => ?_)
    rw [hexp, hS, mul_comm (amp j r) (amp i r)]
    have harg : 2 * Real.pi * (-∑ d, kdist X1 X2 n m d * mean d
          + (shift j r - shift i r))
        = -(2 * Real.pi * ((∑ d, kdist X1 X2 n m d * mean d)
          + (shift i r - shift j r))) := by
      ring
    rw [harg, Real.cos_neg]

theorem conv_Ksub_symm (D : ℕ) (w : ℕ → ℝ) (var : ℕ → Fin D → ℝ)
    (bvar : Fin D → ℝ) (i j : ℕ) {N M : ℕ} (X1 : Fin N → Fin D → ℝ)
    (X2 : Fin M → Fin D → ℝ) (n : Fin N) (m : Fin M) :
    conv_Ksub D w var bvar i j X1 X2 n m
      = conv_Ksub D w var bvar j i X2 X1 m n := by
  simp only [conv_Ksub, ksqdist]
  have h1 : w j * w i = w i * w j := by ring
  have h2 : ∏ d, (var j d + var i d + bvar d) = ∏ d, (var i d + var j d + bvar d) :=
    Finset.prod_congr rfl (fun d _ => by ring)
  have h3 : ∑ d, (X2 m d - X1 n d) ^ 2 * (1 / (var j d + var i d + bvar d))
      = ∑ d, (X1 n d - X2 m d) ^ 2 * (1 / (var i d + var j d + bvar d)) :=
    Finset.sum_congr rfl (fun d _ => by ring)
  rw [h1, h2, h3]

theorem mohsm_Ksub_symm (D : ℕ) (mag : ℕ → ℝ) (mean var delay : ℕ → Fin D → ℝ)
    (ls phase : ℕ → ℝ) (center : Fin D → ℝ) (i j : ℕ) {N M : ℕ}
    (X1 : Fin N → Fin D → ℝ) (X2 : Fin M → Fin D → ℝ) (n : Fin N) (m : Fin M) :
    mohsm_Ksub D mag mean var delay ls phase center i j X1 X2 n m
      = mohsm_Ksub D mag mean var delay ls phase center j i X2 X1 m n := by
  by_cases hij : i = j
  · subst hij
    simp only [mohsm_Ksub, eq_self_iff_true, if_true, kdist, kavg]
    have hexp : ∑ d, (X2 m d - X1 n d) ^ 2 * var i d
        = ∑ d, (X1 n d - X2 m d) ^ 2 * var i d :=
      Finset.sum_congr rfl (fun d _ => by ring)
    have hcos : ∑ d, (X2 m d - X1 n d) * mean i d
        = -∑ d, (X1 n d - X2 m d) * mean i d := by
      rw [← Finset.sum_neg_distrib]
      exact Finset.sum_congr rfl (fun d _ => by ring)
    have henv : ∑ d, ((X2 m d + X1 n d) / 2 - center d) ^ 2 * ls i ^ 2
        = ∑ d, ((X1 n d + X2 m d) / 2 - center d) ^ 2 * ls i ^ 2 :=
      Finset.sum_congr rfl (fun d _ => by ring)
    rw [hexp, hcos, henv, mul_neg, Real.cos_neg]
  · simp only [mohsm_Ksub, if_neg hij, if_neg (Ne.symm hij), kdist, kavg]
    have h1 : mag j * mag i = mag i * mag j := by ring
    have h2 : ∑ d, (mean j d - mean i d)
          * (1 / (var j d + var i d) * (mean j d - mean i d))
        = ∑ d, (mean i d - mean j d)
          * (1 / (var i d + var j d) * (mean i d - mean j d)) :=
      Finset.sum_congr rfl (fun d _ => by ring)
    have h3 : ∏ d, 2 * var j d * (1 / (var j d + var i d)) * var i d
        = ∏ d, 2 * var i d * (1 / (var i d + var j d)) * var j d :=
      Finset.prod_congr rfl (fun d _ => by ring)
    have hls : 2 * ls j ^ 2 * (1 / (ls j ^ 2 + ls i ^ 2)) * ls i ^ 2
        = 2 * ls i ^ 2 * (1 / (ls i ^ 2 + ls j ^ 2)) * ls j ^ 2 := by
      ring
    have h4 : ∑ d, (X2 m d - X1 n d + (delay j d - delay i d)) ^ 2
          * (2 * var j d * (1 / (var j d + var i d)) * var i d)
        = ∑ d, (X1 n d - X2 m d + (delay i d - delay j d)) ^ 2
          * (2 * var i d * (1 / (var i d + var j d)) * var j d) :=
      Finset.sum_congr rfl (fun d _ => by ring)
    have hS : ∑ d, (X2 m d - X1 n d + (delay j d - delay i d))
          * (1 / (var j d + var i d) * (var j d * mean i d + var i d * mean j d))
        = -∑ d, (X1 n d - X2 m d + (delay i d - delay j d))
          * (1 / (var i d + var j d) * (var i d * mean j d + var j d * mean i d)) := by
      rw [← Finset.sum_neg_distrib]
      exact Finset.sum_congr rfl (fun d _ => by ring)
    have h5 : 2 * Real.pi * (∑ d, (X2 m d - X1 n d + (delay j d - delay i d))
          * (1 / (var j d + var i d) * (var j d * mean i d + var i d * mean j d)))
          + (phase j - phase i)
        = -(2 * Real.pi * (∑ d, (X1 n d - X2 m d + (delay i d - delay j d))
          * (1 / (var i d + var j d) * (var i d * mean j d + var j d * mean i d)))
          + (phase i - phase j)) := by
      rw [hS]
      ring
    have henv : ∑ d, ((X2 m d + X1 n d) / 2 - center d) ^ 2
          * (2 * ls i ^ 2 * (1 / (ls i ^ 2 + ls j ^ 2)) * ls j ^ 2)
        = ∑ d, ((X1 n d + X2 m d) / 2 - center d) ^ 2
          * (2 * ls i ^ 2 * (1 / (ls i ^ 2 + ls j ^ 2)) * ls j ^ 2) :=
      Finset.sum_congr rfl (fun d _ => by ring)
    rw [h1, h2, h3, hls, h4, h5, Real.cos_neg, henv]

theorem imo_Ksub_symm (D : ℕ)
    (baseK : ℕ → (N' M' : ℕ) → (Fin N' → Fin D → ℝ) → (Fin M' → Fin D → ℝ)
      → Fin N' → Fin M' → ℝ)
    (hsym : ∀ q (N' M' : ℕ) (X1 : Fin N' → Fin D → ℝ) (X2 : Fin M' → Fin D → ℝ)
      (n : Fin N') (m : Fin M'), baseK q N' M' X1 X2 n m = baseK q M' N' X2 X1 m n)
    (i j : ℕ) {N M : ℕ} (X1 : Fin N → Fin D → ℝ) (X2 : Fin M → Fin D → ℝ)
    (n : Fin N) (m : Fin M) :
    imo_Ksub D baseK i j X1 X2 n m = imo_Ksub D baseK j i X2 X1 m n := by
  by_cases hij : i = j
  · subst hij
    simp only [imo_Ksub, eq_self_iff_true, if_true]
    exact hsym i N M X1 X2 n m
  · simp only [imo_Ksub, if_neg hij, if_neg (Ne.symm hij)]

theorem lmc_Ksub_symm (D Q Rq : ℕ)
    (baseK : ℕ → (N' M' : ℕ) → (Fin N' → Fin D → ℝ) → (Fin M' → Fin D → ℝ)
      → Fin N' → Fin M' → ℝ)
    (hsym : ∀ q (N' M' : ℕ) (X1 : Fin N' → Fin D → ℝ) (X2 : Fin M' → Fin D → ℝ)
      (n : Fin N') (m : Fin M'), baseK q N' M' X1 X2 n m = baseK q M' N' X2 X1 m n)
    (w : ℕ → Fin Q → Fin Rq → ℝ) (i j : ℕ) {N M : ℕ}
    (X1 : Fin N → Fin D → ℝ) (X2 : Fin M → Fin D → ℝ) (n : Fin N) (m : Fin M) :
    lmc_Ksub D Q Rq baseK w i j X1 X2 n m = lmc_Ksub D Q Rq baseK w j i X2 X1 m n := by
  simp only [lmc_Ksub]
  refine Finset.sum_congr rfl (fun q _ => ?_)
  rw [← hsym q N M X1 X2 n m]
  congr 1
  exact Finset.sum_congr rfl (fun rq _ => by ring)

/-- C3: for every concrete multi-output kernel, every pair of channels `i`,`j`
and point sets `X1`,`X2`, the transpose of `Ksub(i,j,X1,X2)` equals
`Ksub(j,i,X2,X1)` — entrywise, `Ksub(i,j,X1,X2)[n,m] = Ksub(j,i,X2,X1)[m,n]`.
This covers MOSM, uMOSM, CSM, CONV and MOHSM outright, and
IndependentMultiOutputKernel and LMC under the same Hermitian contract for
their sub-kernels (whose code is outside these sources). -/
theorem ksub_transpose_symmetry :
    (∀ (D : ℕ) (mag : ℕ → ℝ) (mean var delay : ℕ → Fin D → ℝ) (phase : ℕ → ℝ)
      (i j : ℕ) (N M : ℕ) (X1 : Fin N → Fin D → ℝ) (X2 : Fin M → Fin D → ℝ)
      (n : Fin N) (m : Fin M),
      mosm_Ksub D mag mean var delay phase i j X1 X2 n m
        = mosm_Ksub D mag mean var delay phase j i X2 X1 m n)
    ∧ (∀ (D k : ℕ) (L : ℕ → ℕ → ℝ) (mean var delay : ℕ → Fin D → ℝ)
      (phase : ℕ → ℝ) (i j : ℕ) (N M : ℕ) (X1 : Fin N → Fin D → ℝ)
      (X2 : Fin M → Fin D → ℝ) (n : Fin N) (m : Fin M),
      umosm_Ksub D k L mean var delay phase i j X1 X2 n m
        = umosm_Ksub D k L mean var delay phase j i X2 X1 m n)
    ∧ (∀ (D Rq : ℕ) (amp : ℕ → Fin Rq → ℝ) (mean var : Fin D → ℝ)
      (shift : ℕ → Fin Rq → ℝ) (i j : ℕ) (N M : ℕ) (X1 : Fin N → Fin D → ℝ)
      (X2 : Fin M → Fin D → ℝ) (n : Fin N) (m : Fin M),
      csm_Ksub D Rq amp mean var shift i j X1 X2 n m
        = csm_Ksub D Rq amp mean var shift j i X2 X1 m n)
    ∧ (∀ (D : ℕ) (w : ℕ → ℝ) (var : ℕ → Fin D → ℝ) (bvar : Fin D → ℝ)
      (i j : ℕ) (N M : ℕ) (X1 : Fin N → Fin D → ℝ) (X2 : Fin M → Fin D → ℝ)
      (n : Fin N) (m : Fin M),
      conv_Ksub D w var bvar i j X1 X2 n m
        = conv_Ksub D w var bvar j i X2 X1 m n)
    ∧ (∀ (D : ℕ) (mag : ℕ → ℝ) (mean var delay : ℕ → Fin D → ℝ)
      (ls phase : ℕ → ℝ) (center : Fin D → ℝ) (i j : ℕ) (N M : ℕ)
      (X1 : Fin N → Fin D → ℝ) (X2 : Fin M → Fin D → ℝ) (n : Fin N) (m : Fin M),
      mohsm_Ksub D mag mean var delay ls phase center i j X1 X2 n m
        = mohsm_Ksub D mag mean var delay ls phase center j i X2 X1 m n)
    ∧ (∀ (D : ℕ)
      (baseK : ℕ → (N' M' : ℕ) → (Fin N' → Fin D → ℝ) → (Fin M' → Fin D → ℝ)
        → Fin N' → Fin M' → ℝ),
      (∀ q (N' M' : ℕ) (X1 : Fin N' → Fin D → ℝ) (X2 : Fin M' → Fin D → ℝ)
        (n : Fin N') (m : Fin M'),
        baseK q N' M' X1 X2 n m = baseK q M' N' X2 X1 m n) →
      ∀ (i j : ℕ) (N M : ℕ) (X1 : Fin N → Fin D → ℝ) (X2 : Fin M → Fin D → ℝ)
        (n : Fin N) (m : Fin M),
        imo_Ksub D baseK i j X1 X2 n m = imo_Ksub D baseK j i X2 X1 m n)
    ∧ (∀ (D Q Rq : ℕ)
      (baseK : ℕ → (N' M' : ℕ) → (Fin N' → Fin D → ℝ) → (Fin M' → Fin D → ℝ)
        → Fin N' → Fin M' → ℝ),
      (∀ q (N' M' : ℕ) (X1 : Fin N' → Fin D → ℝ) (X2 : Fin M' → Fin D → ℝ)
        (n : Fin N') (m : Fin M'),
        baseK q N' M' X1 X2 n m = baseK q M' N' X2 X1 m n) →
      ∀ (w : ℕ → Fin Q → Fin Rq → ℝ) (i j : ℕ) (N M : ℕ)
        (X1 : Fin N → Fin D → ℝ) (X2 : Fin M → Fin D → ℝ) (n : Fin N) (m : Fin M),
        lmc_Ksub D Q Rq baseK w i j X1 X2 n m
          = lmc_Ksub D Q Rq baseK w j i X2 X1 m n) := by
  refine ⟨?_, ?_, ?_, ?_, ?_, ?_, ?_⟩
  · intro D mag mean var delay phase i j N M X1 X2 n m
    exact mosm_Ksub_symm D mag mean var delay phase i j X1 X2 n m
  · intro D k L mean var delay phase i j N M X1 X2 n m
    exact umosm_Ksub_symm D k L mean var delay phase i j X1 X2 n m
  · intro D Rq amp mean var shift i j N M X1 X2 n m
    exact csm_Ksub_symm D Rq amp mean var shift i j X1 X2 n m
  · intro D w var bvar i j N M X1 X2 n m
    exact conv_Ksub_symm D w var bvar i j X1 X2 n m
  · intro D mag mean var delay ls phase center i j N M X1 X2 n m
    exact mohsm_Ksub_symm D mag mean var delay ls phase center i j X1 X2 n m
  · intro D baseK hsym i j N M X1 X2 n m
    exact imo_Ksub_symm D baseK hsym i j X1 X2 n m
  · intro D Q Rq baseK hsym w i j N M X1 X2 n m
    exact lmc_Ksub_symm D Q Rq baseK hsym w i j X1 X2 n m

/-- C3, witness: the IndependentMultiOutputKernel conjunct applied with the
(symmetric) identically-zero sub-kernels at concrete channels and one-point
sets. -/
theorem ksub_transpose_symmetry_inst :
    imo_Ksub 1 (fun _ _ _ _ _ _ _ => (0 : ℝ)) 0 1
        (fun (_ : Fin 1) (_ : Fin 1) => (0 : ℝ))
        (fun (_ : Fin 1) (_ : Fin 1) => (0 : ℝ)) 0 0
      = imo_Ksub 1 (fun _ _ _ _ _ _ _ => (0 : ℝ)) 1 0
        (fun (_ : Fin 1) (_ : Fin 1) => (0 : ℝ))
        (fun (_ : Fin 1) (_ : Fin 1) => (0 : ℝ)) 0 0 :=
  ksub_transpose_symmetry.2.2.2.2.2.1 1 (fun _ _ _ _ _ _ _ => (0 : ℝ))
    (fun _ _ _ _ _ _ _ => rfl) 0 1 1 1
    (fun _ _ => (0 : ℝ)) (fun _ _ => (0 : ℝ)) 0 0

theorem mosm_Ksub_diag_eq (D : ℕ) (mag : ℕ → ℝ) (mean var delay : ℕ → Fin D → ℝ)
    (phase : ℕ → ℝ) (i : ℕ) {N : ℕ} (X1 : Fin N → Fin D → ℝ) (n : Fin N) :
    mosm_Ksub_diag D mag var i X1 n
      = mosm_Ksub D mag mean var delay phase i i X1 X1 n n := by
  simp only [mosm_Ksub, mosm_Ksub_diag, eq_self_iff_true, if_true, kdist, sub_self]
  have h1 : ∑ d : Fin D, (0 : ℝ) ^ 2 * var i d = 0 := by simp
  have h2 : ∑ d : Fin D, (0 : ℝ) * mean i d = 0 := by simp
  rw [h1, h2]
  simp

theorem umosm_Ksub_diag_eq (D k : ℕ) (L : ℕ → ℕ → ℝ)
    (mean var delay : ℕ → Fin D → ℝ) (phase : ℕ → ℝ) (i : ℕ) {N : ℕ}
    (X1 : Fin N → Fin D → ℝ) (n : Fin N) :
    umosm_Ksub_diag D k L var i X1 n
      = umosm_Ksub D k L mean var delay phase i i X1 X1 n n := by
  simp only [umosm_Ksub, umosm_Ksub_diag, eq_self_iff_true, if_true, kdist, sub_self]
  have h1 : ∑ d : Fin D, (0 : ℝ) ^ 2 * var i d = 0 := by simp
  have h2 : ∑ d : Fin D, (0 : ℝ) * mean i d = 0 := by simp
  rw [h1, h2]
  simp

theorem csm_Ksub_diag_eq (D Rq : ℕ) (amp : ℕ → Fin Rq → ℝ) (mean var : Fin D → ℝ)
    (shift : ℕ → Fin Rq → ℝ) (i : ℕ) {N : ℕ} (X1 : Fin N → Fin D → ℝ) (n : Fin N) :
    csm_Ksub_diag D Rq amp i X1 n
      = csm_Ksub D Rq amp mean var shift i i X1 X1 n n := by
  simp only [csm_Ksub, csm_Ksub_diag, eq_self_iff_true, if_true, kdist, sub_self]
  have h1 : ∑ d : Fin D, (0 : ℝ) ^ 2 * var d = 0 := by simp
  have h2 : ∑ d : Fin D, (0 : ℝ) * mean d = 0 := by simp
  rw [h1, h2]
  simp

theorem conv_Ksub_diag_eq (D : ℕ) (w : ℕ → ℝ) (var : ℕ → Fin D → ℝ)
    (bvar : Fin D → ℝ) (i : ℕ) {N : ℕ} (X1 : Fin N → Fin D → ℝ) (n : Fin N) :
    conv_Ksub_diag D w var bvar i X1 n = conv_Ksub D w var bvar i i X1 X1 n n := by
  simp only [conv_Ksub, conv_Ksub_diag, ksqdist, sub_self]
  have h1 : ∑ d : Fin D, (0 : ℝ) ^ 2 * (1 / (var i d + var i d + bvar d)) = 0 := by
    simp
  have h2 : ∏ d, (2 * var i d + bvar d) = ∏ d, (var i d + var i d + bvar d) :=
    Finset.prod_congr rfl (fun d _ => by ring)
  rw [h1, h2, sq]
  simp

theorem mohsm_Ksub_diag_eq (D : ℕ) (mag : ℕ → ℝ)
    (mean var delay : ℕ → Fin D → ℝ) (ls phase : ℕ → ℝ) (center : Fin D → ℝ)
    (i : ℕ) {N : ℕ} (X1 : Fin N → Fin D → ℝ) (n : Fin N) :
    mohsm_Ksub_diag D mag var ls center i X1 n
      = mohsm_Ksub D mag mean var delay ls phase center i i X1 X1 n n := by
  simp only [mohsm_Ksub, mohsm_Ksub_diag, eq_self_iff_true, if_true, kdist,
    kavg, sub_self]
  have h1 : ∑ d : Fin D, (0 : ℝ) ^ 2 * var i d = 0 := by simp
  have h2 : ∑ d : Fin D, (0 : ℝ) * mean i d = 0 := by simp
  have h3 : ∑ d, ((X1 n d + X1 n d) / 2 - center d) ^ 2 * ls i ^ 2
      = ∑ d, (X1 n d - center d) ^ 2 * ls i ^ 2 :=
    Finset.sum_congr rfl (fun d _ => by ring)
  rw [h1, h2, h3]
  simp

theorem imo_Ksub_diag_eq (D : ℕ)
    (baseK : ℕ → (N' M' : ℕ) → (Fin N' → Fin D → ℝ) → (Fin M' → Fin D → ℝ)
      → Fin N' → Fin M' → ℝ)
    (baseKdiag : ℕ → (N' : ℕ) → (Fin N' → Fin D → ℝ) → Fin N' → ℝ)
    (hdiag : ∀ q (N' : ℕ) (X1 : Fin N' → Fin D → ℝ) (n : Fin N'),
      baseKdiag q N' X1 n = baseK q N' N' X1 X1 n n)
    (i : ℕ) {N : ℕ} (X1 : Fin N → Fin D → ℝ) (n : Fin N) :
    imo_Ksub_diag D baseKdiag i X1 n = imo_Ksub D baseK i i X1 X1 n n := by
  simp only [imo_Ksub, imo_Ksub_diag, eq_self_iff_true, if_true]
  exact hdiag i N X1 n

theorem lmc_Ksub_diag_eq (D Q Rq : ℕ)
    (baseK : ℕ → (N' M' : ℕ) → (Fin N' → Fin D → ℝ) → (Fin M' → Fin D → ℝ)
      → Fin N' → Fin M' → ℝ)
    (baseKdiag : ℕ → (N' : ℕ) → (Fin N' → Fin D → ℝ) → Fin N' → ℝ)
    (hdiag : ∀ q (N' : ℕ) (X1 : Fin N' → Fin D → ℝ) (n : Fin N'),
      baseKdiag q N' X1 n = baseK q N' N' X1 X1 n n)
    (w : ℕ → Fin Q → Fin Rq → ℝ) (i : ℕ) {N : ℕ} (X1 : Fin N → Fin D → ℝ)
    (n : Fin N) :
    lmc_Ksub_diag D Q Rq baseKdiag w i X1 n = lmc_Ksub D Q Rq baseK w i i X1 X1 n n := by
  simp only [lmc_Ksub, lmc_Ksub_diag]
  refine Finset.sum_congr rfl (fun q _ => ?_)
  rw [hdiag q N X1 n]
  congr 1
  exact Finset.sum_congr rfl (fun rq _ => sq (w i q rq) ▸ rfl)

/-- C6: for every concrete multi-output kernel, channel `i` and point set
`X1`, `Ksub_diag(i, X1)` equals the diagonal of `Ksub(i,i,X1,X1)` — entrywise,
`Ksub_diag(i,X1)[n] = Ksub(i,i,X1,X1)[n,n]` for every `n < |X1|` (both are
indexed by `Fin |X1|`, so the vector has length `|X1|`).  MOSM, uMOSM, CSM,
CONV and MOHSM are covered outright; IndependentMultiOutputKernel and LMC
under the same diagonal contract for their sub-kernels (whose code is outside
these sources). -/
theorem ksub_diag_consistency :
    (∀ (D : ℕ) (mag : ℕ → ℝ) (mean var delay : ℕ → Fin D → ℝ) (phase : ℕ → ℝ)
      (i : ℕ) (N : ℕ) (X1 : Fin N → Fin D → ℝ) (n : Fin N),
      mosm_Ksub_diag D mag var i X1 n
        = mosm_Ksub D mag mean var delay phase i i X1 X1 n n)
    ∧ (∀ (D k : ℕ) (L : ℕ → ℕ → ℝ) (mean var delay : ℕ → Fin D → ℝ)
      (phase : ℕ → ℝ) (i : ℕ) (N : ℕ) (X1 : Fin N → Fin D → ℝ) (n : Fin N),
      umosm_Ksub_diag D k L var i X1 n
        = umosm_Ksub D k L mean var delay phase i i X1 X1 n n)
    ∧ (∀ (D Rq : ℕ) (amp : ℕ → Fin Rq → ℝ) (mean var : Fin D → ℝ)
      (shift : ℕ → Fin Rq → ℝ) (i : ℕ) (N : ℕ) (X1 : Fin N → Fin D → ℝ)
      (n : Fin N),
      csm_Ksub_diag D Rq amp i X1 n
        = csm_Ksub D Rq amp mean var shift i i X1 X1 n n)
    ∧ (∀ (D : ℕ) (w : ℕ → ℝ) (var : ℕ → Fin D → ℝ) (bvar : Fin D → ℝ)
      (i : ℕ) (N : ℕ) (X1 : Fin N → Fin D → ℝ) (n : Fin N),
      conv_Ksub_diag D w var bvar i X1 n = conv_Ksub D w var bvar i i X1 X1 n n)
    ∧ (∀ (D : ℕ) (mag : ℕ → ℝ) (mean var delay : ℕ → Fin D → ℝ)
      (ls phase : ℕ → ℝ) (center : Fin D → ℝ) (i : ℕ) (N : ℕ)
      (X1 : Fin N → Fin D → ℝ) (n : Fin N),
      mohsm_Ksub_diag D mag var ls center i X1 n
        = mohsm_Ksub D mag mean var delay ls phase center i i X1 X1 n n)
    ∧ (∀ (D : ℕ)
      (baseK : ℕ → (N' M' : ℕ) → (Fin N' → Fin D → ℝ) → (Fin M' → Fin D → ℝ)
        → Fin N' → Fin M' → ℝ)
      (baseKdiag : ℕ → (N' : ℕ) → (Fin N' → Fin D → ℝ) → Fin N' → ℝ),
      (∀ q (N' : ℕ) (X1 : Fin N' → Fin D → ℝ) (n : Fin N'),
        baseKdiag q N' X1 n = baseK q N' N' X1 X1 n n) →
      ∀ (i : ℕ) (N : ℕ) (X1 : Fin N → Fin D → ℝ) (n : Fin N),
        imo_Ksub_diag D baseKdiag i X1 n = imo_Ksub D baseK i i X1 X1 n n)
    ∧ (∀ (D Q Rq : ℕ)
      (baseK : ℕ → (N' M' : ℕ) → (Fin N' → Fin D → ℝ) → (Fin M' → Fin D → ℝ)
        → Fin N' → Fin M' → ℝ)
      (baseKdiag : ℕ → (N' : ℕ) → (Fin N' → Fin D → ℝ) → Fin N' → ℝ),
      (∀ q (N' : ℕ) (X1 : Fin N' → Fin D → ℝ) (n : Fin N'),
        baseKdiag q N' X1 n = baseK q N' N' X1 X1 n n) →
      ∀ (w : ℕ → Fin Q → Fin Rq → ℝ) (i : ℕ) (N : ℕ)
        (X1 : Fin N → Fin D → ℝ) (n : Fin N),
        lmc_Ksub_diag D Q Rq baseKdiag w i X1 n
          = lmc_Ksub D Q Rq baseK w i i X1 X1 n n) := by
  refine ⟨?_, ?_, ?_, ?_, ?_, ?_, ?_⟩
  · intro D mag mean var delay phase i N X1 n
    exact mosm_Ksub_diag_eq D mag mean var delay phase i X1 n
  · intro D k L mean var delay phase i N X1 n
    exact umosm_Ksub_diag_eq D k L mean var delay phase i X1 n
  · intro D Rq amp mean var shift i N X1 n
    exact csm_Ksub_diag_eq D Rq amp mean var shift i X1 n
  · intro D w var bvar i N X1 n
    exact conv_Ksub_diag_eq D w var bvar i X1 n
  · intro D mag mean var delay ls phase center i N X1 n
    exact mohsm_Ksub_diag_eq D mag mean var delay ls phase center i X1 n
  · intro D baseK baseKdiag hdiag i N X1 n
    exact imo_Ksub_diag_eq D baseK baseKdiag hdiag i X1 n
  · intro D Q Rq baseK baseKdiag hdiag w i N X1 n
    exact lmc_Ksub_diag_eq D Q Rq baseK baseKdiag hdiag w i X1 n

/-- C6, witness: the IndependentMultiOutputKernel conjunct applied with
identically-zero sub-kernels (whose diagonal contract holds definitionally) at
a concrete channel and one-point set. -/
theorem ksub_diag_consistency_inst :
    imo_Ksub_diag 1 (fun _ _ _ _ => (0 : ℝ)) 0
        (fun (_ : Fin 1) (_ : Fin 1) => (0 : ℝ)) 0
      = imo_Ksub 1 (fun _ _ _ _ _ _ _ => (0 : ℝ)) 0 0
        (fun (_ : Fin 1) (_ : Fin 1) => (0 : ℝ))
        (fun (_ : Fin 1) (_ : Fin 1) => (0 : ℝ)) 0 0 :=
  ksub_diag_consistency.2.2.2.2.2.1 1 (fun _ _ _ _ _ _ _ => (0 : ℝ))
    (fun _ _ _ _ => (0 : ℝ)) (fun _ _ _ _ => rfl) 0 1
    (fun _ _ => (0 : ℝ)) 0

/-- C4, counterexample: uMOSM's cross block is not MOSM's cross block with the
magnitude product replaced by `(LLᵀ)[i,j]` under equal mean/variance/delay/
phase parameters.  At `D = 1`, all-ones magnitude matrix and mean/variance,
zero delay, phases `(1/2, 0)`, channels `(0,1)` and the one-point sets `{0}`,
uMOSM gives `√(2π)·cos(1/2)` (phase added outside the `2π` factor) while the
substituted MOSM formula gives `√(2π)·cos(π) = −√(2π)`. -/
theorem umosm_mosm_claim_counterexample :
    umosm_Ksub 1 2 (fun _ _ => (1 : ℝ)) (fun _ _ => 1) (fun _ _ => 1)
        (fun _ _ => 0) (fun c => if c = 0 then (1/2 : ℝ) else 0) 0 1
        (fun (_ : Fin 1) (_ : Fin 1) => (0 : ℝ))
        (fun (_ : Fin 1) (_ : Fin 1) => (0 : ℝ)) 0 0
      ≠ mosm_cross_sub 1 (LLt 2 (fun _ _ => (1 : ℝ)) 0 1) (fun _ _ => 1)
        (fun _ _ => 1) (fun _ _ => 0)
        (fun c => if c = 0 then (1/2 : ℝ) else 0) 0 1
        (fun (_ : Fin 1) (_ : Fin 1) => (0 : ℝ))
        (fun (_ : Fin 1) (_ : Fin 1) => (0 : ℝ)) 0 0 := by
  have hL : LLt 2 (fun _ _ => (1 : ℝ)) 0 1 = 1 := by
    norm_num [LLt, trilM, Finset.sum_range_succ]
  have e1 : umosm_Ksub 1 2 (fun _ _ => (1 : ℝ)) (fun _ _ => 1) (fun _ _ => 1)
        (fun _ _ => 0) (fun c => if c = 0 then (1/2 : ℝ) else 0) 0 1
        (fun (_ : Fin 1) (_ : Fin 1) => (0 : ℝ))
        (fun (_ : Fin 1) (_ : Fin 1) => (0 : ℝ)) 0 0
      = Real.sqrt (2 * Real.pi) * Real.cos (1/2) := by
    norm_num [umosm_Ksub, kdist, twopiHalf, hL, Fin.sum_univ_one,
      Fin.prod_univ_one, Real.exp_zero, Real.sqrt_one, pow_one]
  have e2 : mosm_cross_sub 1 (LLt 2 (fun _ _ => (1 : ℝ)) 0 1) (fun _ _ => 1)
        (fun _ _ => 1) (fun _ _ => 0)
        (fun c => if c = 0 then (1/2 : ℝ) else 0) 0 1
        (fun (_ : Fin 1) (_ : Fin 1) => (0 : ℝ))
        (fun (_ : Fin 1) (_ : Fin 1) => (0 : ℝ)) 0 0
      = -Real.sqrt (2 * Real.pi) := by
    norm_num [mosm_cross_sub, kdist, twopiHalf, hL, Fin.sum_univ_one,
      Fin.prod_univ_one, Real.exp_zero, Real.sqrt_one, pow_one]
    rw [show 2 * Real.pi * (1/2) = Real.pi by ring, Real.cos_pi]
    ring
  rw [e1, e2]
  have hcos : 0 < Real.cos (1/2) := by
    apply Real.cos_pos_of_mem_Ioo
    constructor
    · nlinarith [Real.pi_gt_three]
    · nlinarith [Real.pi_gt_three]
  have hsq : 0 < Real.sqrt (2 * Real.pi) :=
    Real.sqrt_pos.mpr (by positivity)
  nlinarith

/-- C4, amended: for distinct channels, uMOSM's cross block equals MOSM's
cross block with the magnitude product replaced by `(L·Lᵀ)[i,j]` (`L` the
lower triangle of uMOSM's magnitude parameter) and with equal mean, variance
and delay parameters — but with the phase parameters divided by `2π`, because
uMOSM adds the phase difference outside the `2π` factor of the cosine while
MOSM adds it inside. -/
theorem umosm_mosm_phase_scaled (D k : ℕ) (L : ℕ → ℕ → ℝ)
    (mean var delay : ℕ → Fin D → ℝ) (phase : ℕ → ℝ) (i j : ℕ) (hij : i ≠ j)
    {N M : ℕ} (X1 : Fin N → Fin D → ℝ) (X2 : Fin M → Fin D → ℝ)
    (n : Fin N) (m : Fin M) :
    umosm_Ksub D k L mean var delay phase i j X1 X2 n m
      = mosm_cross_sub D (LLt k L i j) mean var delay
          (fun c => phase c / (2 * Real.pi)) i j X1 X2 n m := by
  simp only [umosm_Ksub, mosm_cross_sub, if_neg hij]
  have harg : ∀ S : ℝ,
      2 * Real.pi * (S + (phase i / (2 * Real.pi) - phase j / (2 * Real.pi)))
        = 2 * Real.pi * S + (phase i - phase j) := by
    intro S
    field_simp
    ring
  rw [harg]

/-- C4, witness: the phase-scaled equality at `D = 1`, channels `(0,1)`, unit
parameters and one-point sets. -/
theorem umosm_mosm_phase_scaled_inst :
    umosm_Ksub 1 2 (fun _ _ => (1 : ℝ)) (fun _ _ => 1) (fun _ _ => 1)
        (fun _ _ => 0) (fun c => if c = 0 then (1/2 : ℝ) else 0) 0 1
        (fun (_ : Fin 1) (_ : Fin 1) => (0 : ℝ))
        (fun (_ : Fin 1) (_ : Fin 1) => (0 : ℝ)) 0 0
      = mosm_cross_sub 1 (LLt 2 (fun _ _ => (1 : ℝ)) 0 1) (fun _ _ => 1)
        (fun _ _ => 1) (fun _ _ => 0)
        (fun c => (if c = 0 then (1/2 : ℝ) else 0) / (2 * Real.pi)) 0 1
        (fun (_ : Fin 1) (_ : Fin 1) => (0 : ℝ))
        (fun (_ : Fin 1) (_ : Fin 1) => (0 : ℝ)) 0 0 :=
  umosm_mosm_phase_scaled 1 2 (fun _ _ => (1 : ℝ)) (fun _ _ => 1)
    (fun _ _ => 1) (fun _ _ => 0) (fun c => if c = 0 then (1/2 : ℝ) else 0)
    0 1 (by norm_num) (fun _ _ => (0 : ℝ)) (fun _ _ => (0 : ℝ)) 0 0

/-- C5, counterexample: the MOHSM same-channel block is not the MOSM
same-channel block times the Gaussian envelope.  At `D = 1`, unit magnitude,
mean and variance, lengthscale 2, zero center and the one-point sets `{0}`
(where lag and envelope both vanish), MOHSM gives `(2π)·√(2²) = 4π` — its
prefactor is `(2π)^D·lengthscale^D`-fold, not `(2π)^{D/2}` — while the claimed
product gives `√(2π)`. -/
theorem mohsm_envelope_claim_counterexample :
    mohsm_Ksub 1 (fun _ => (1 : ℝ)) (fun _ _ => 1) (fun _ _ => 1)
        (fun _ _ => 0) (fun _ => 2) (fun _ => 0) (fun _ => 0) 0 0
        (fun (_ : Fin 1) (_ : Fin 1) => (0 : ℝ))
        (fun (_ : Fin 1) (_ : Fin 1) => (0 : ℝ)) 0 0
      ≠ mohsm_same_claimed 1 (fun _ => (1 : ℝ)) (fun _ _ => 1) (fun _ _ => 1)
        (fun _ => 2) (fun _ => 0) 0
        (fun (_ : Fin 1) (_ : Fin 1) => (0 : ℝ))
        (fun (_ : Fin 1) (_ : Fin 1) => (0 : ℝ)) 0 0 := by
  have h4 : Real.sqrt (4 : ℝ) = 2 := by
    rw [show (4 : ℝ) = 2 ^ 2 by norm_num]
    exact Real.sqrt_sq (by norm_num)
  have e1 : mohsm_Ksub 1 (fun _ => (1 : ℝ)) (fun _ _ => 1) (fun _ _ => 1)
        (fun _ _ => 0) (fun _ => 2) (fun _ => 0) (fun _ => 0) 0 0
        (fun (_ : Fin 1) (_ : Fin 1) => (0 : ℝ))
        (fun (_ : Fin 1) (_ : Fin 1) => (0 : ℝ)) 0 0
      = 2 * Real.pi * 2 := by
    norm_num [mohsm_Ksub, kdist, kavg, twopiFull, Fin.sum_univ_one,
      Fin.prod_univ_one, Real.exp_zero, Real.sqrt_one, pow_one, h4]
  have e2 : mohsm_same_claimed 1 (fun _ => (1 : ℝ)) (fun _ _ => 1)
        (fun _ _ => 1) (fun _ => 2) (fun _ => 0) 0
        (fun (_ : Fin 1) (_ : Fin 1) => (0 : ℝ))
        (fun (_ : Fin 1) (_ : Fin 1) => (0 : ℝ)) 0 0
      = Real.sqrt (2 * Real.pi) := by
    norm_num [mohsm_same_claimed, kdist, kavg, twopiHalf, Fin.sum_univ_one,
      Fin.prod_univ_one, Real.exp_zero, Real.sqrt_one, pow_one]
  rw [e1, e2]
  have hlt : Real.sqrt (2 * Real.pi) < 2 * Real.pi := by
    rw [Real.sqrt_lt' (by positivity)]
    nlinarith [Real.pi_gt_three]
  have hpi : 0 < Real.pi := Real.pi_pos
  intro h
  nlinarith

/-- C5, amended: the MOHSM same-channel block equals the MOSM same-channel
block (equal magnitude/mean/variance) multiplied by the extra prefactor
`(2π)^{D/2}·√(lengthscale²)^D` and by the Gaussian envelope
`exp(−½·Σ(avg−center)²·lengthscale²)` in the average position
`avg = (x+x')/2`, where `lengthscale²` is the square of the channel's
lengthscale parameter (the code's local `lengthscale`). -/
theorem mohsm_mosm_envelope_factorization (D : ℕ) (mag : ℕ → ℝ)
    (mean var delay : ℕ → Fin D → ℝ) (ls phase : ℕ → ℝ) (center : Fin D → ℝ)
    (i : ℕ) {N M : ℕ} (X1 : Fin N → Fin D → ℝ) (X2 : Fin M → Fin D → ℝ)
    (n : Fin N) (m : Fin M) :
    mohsm_Ksub D mag mean var delay ls phase center i i X1 X2 n m
      = mosm_Ksub D mag mean var delay phase i i X1 X2 n m
        * (twopiHalf D * Real.sqrt (ls i ^ 2) ^ D)
        * Real.exp (-(1/2) * ∑ d, (kavg X1 X2 n m d - center d) ^ 2 * ls i ^ 2) := by
  simp only [mohsm_Ksub, mosm_Ksub, eq_self_iff_true, if_true]
  have htp : twopiFull D = twopiHalf D * twopiHalf D := by
    rw [twopiFull, twopiHalf, ← mul_pow,
      Real.mul_self_sqrt (by positivity)]
  rw [htp]
  ring

theorem pyInt_add_half_toNat (x : ℝ) :
    (pyInt (x + 1/2)).toNat = (round x).toNat := by
  rw [round_eq, pyInt]
  by_cases h : (0 : ℝ) ≤ x + 1/2
  · rw [if_pos h]
  · rw [if_neg h]
    push_neg at h
    have h1 : ⌈x + 1/2⌉ ≤ 0 := by
      rw [show (0 : ℤ) = ((0 : ℤ)) from rfl, Int.ceil_le]
      exact_mod_cast h.le
    have h2 : ⌊x + 1/2⌋ ≤ 0 := le_trans (Int.floor_le_ceil _) h1
    omega

/-- C1, counterexample: the Monte-Carlo fallback does not draw from
`N(mu, var)`.  With one quadrature node `t=0, w=1`, `mean(f) = f+1`,
`sample = id`, `mu = 0`, `var = 4`, `ci = (0, 1/2)`, `n = 2` and draws
`z = [-1, 1]`, the code (which samples `mu* + var·z` around the re-computed
predictive mean `mu* = 1`, passing `var` as torch's scale) yields lower
quantile `-3`, while sampling `mu + √var·z` as the claim states yields `-2`. -/
theorem predict_mc_claim_counterexample :
    (predict_ci (fun x => x + 1) (fun x => x) [0] [1] 0 4 (0, 1/2) 2
        [-1, 1]).2.1
      ≠ (predict_ci_spec (fun x => x + 1) (fun x => x) [0] [1] 0 4 (0, 1/2) 2
        [-1, 1]).2.1 := by
  have h4 : Real.sqrt (4 : ℝ) = 2 := by
    rw [show (4 : ℝ) = 2 ^ 2 by norm_num]
    exact Real.sqrt_sq (by norm_num)
  have hfl : (⌊(1 : ℝ)/2⌋ : ℤ) = 0 := by
    rw [Int.floor_eq_zero_iff]
    constructor <;> norm_num
  have hq : quadrature [0] [1] (fun x => x + 1) 0 4 = 1 := by
    norm_num [quadrature, List.zip]
  have e1 : (predict_ci (fun x => x + 1) (fun x => x) [0] [1] 0 4 (0, 1/2) 2
      [-1, 1]).2.1 = -3 := by
    simp only [predict_ci, hq]
    norm_num [sortAsc, List.insertionSort, List.orderedInsert, pyInt, hfl]
  have e2 : (predict_ci_spec (fun x => x + 1) (fun x => x) [0] [1] 0 4
      (0, 1/2) 2 [-1, 1]).2.1 = -2 := by
    simp only [predict_ci_spec, h4]
    norm_num [sortAsc, List.insertionSort, List.orderedInsert]
  rw [e1, e2]
  norm_num

/-- C1, amended: on the confidence-interval path the Monte-Carlo fallback
computes the quadrature point prediction `mu*`, draws the `n` samples with
mean `mu*` and standard deviation `var` — i.e. from `N(mu*, var²)`, since the
code passes `var` where torch's `Normal` expects the scale — pushes them
through `sample`, sorts ascending per data point, and returns the order
statistics at indices `round(ci[0]·n)` and `round(ci[1]·n)`. -/
theorem predict_mc_fallback_characterization (meanF sampleF : ℝ → ℝ)
    (ts ws : List ℝ) (mu var : ℝ) (ci : ℝ × ℝ) (n : ℕ) (z : List ℝ)
    (hv : 0 ≤ var) :
    predict_ci meanF sampleF ts ws mu var ci n z
      = (quadrature ts ws meanF mu var,
         (sortAsc ((z.map (fun s => quadrature ts ws meanF mu var
             + Real.sqrt (var ^ 2) * s)).map sampleF)).getD
           (round (ci.1 * n)).toNat 0,
         (sortAsc ((z.map (fun s => quadrature ts ws meanF mu var
             + Real.sqrt (var ^ 2) * s)).map sampleF)).getD
           (round (ci.2 * n)).toNat 0) := by
  simp only [predict_ci]
  rw [Real.sqrt_sq hv, pyInt_add_half_toNat, pyInt_add_half_toNat]

/-- C1, witness: the characterization at `var = 1` with empty node and draw
lists. -/
theorem predict_mc_fallback_characterization_inst :
    (0 : ℝ) ≤ 1
    ∧ predict_ci (fun x => x) (fun x => x) [] [] 0 1 (0, 0) 0 []
      = (quadrature [] [] (fun x => x) 0 1,
         (sortAsc ((([] : List ℝ).map (fun s => quadrature [] [] (fun x => x) 0 1
             + Real.sqrt ((1 : ℝ) ^ 2) * s)).map (fun x => x))).getD
           (round ((0 : ℝ) * (0 : ℕ))).toNat 0,
         (sortAsc ((([] : List ℝ).map (fun s => quadrature [] [] (fun x => x) 0 1
             + Real.sqrt ((1 : ℝ) ^ 2) * s)).map (fun x => x))).getD
           (round ((0 : ℝ) * (0 : ℕ))).toNat 0) :=
  ⟨by norm_num,
    predict_mc_fallback_characterization (fun x => x) (fun x => x) [] [] 0 1
      (0, 0) 0 [] (by norm_num)⟩

/-- C9: `BernoulliLikelihood.sample` returns its input unchanged for every
latent value (no Bernoulli draw is made); consequently, for every link other
than the inverse probit, `BernoulliLikelihood.predict` takes the base-class
Monte-Carlo path, and its confidence bounds are the empirical quantiles of the
sorted latent normal samples themselves rather than of Bernoulli
observations. -/
theorem bernoulli_sample_identity_predict :
    (∀ f : ℝ, bernoulli_sample f = f)
    ∧ (∀ (erf : ℝ → ℝ) (link : LinkFn), link ≠ LinkFn.invProbit →
      ∀ (ts ws : List ℝ) (mu var : ℝ) (ci : ℝ × ℝ) (n : ℕ) (z : List ℝ),
      bernoulli_predict erf link ts ws mu var ci n z
        = predict_ci (bernoulli_mean erf link) bernoulli_sample ts ws mu var
            ci n z)
    ∧ (∀ (meanF : ℝ → ℝ) (ts ws : List ℝ) (mu var : ℝ) (ci : ℝ × ℝ) (n : ℕ)
      (z : List ℝ),
      (predict_ci meanF bernoulli_sample ts ws mu var ci n z).2.1
        = (sortAsc (z.map (fun s => quadrature ts ws meanF mu var
            + var * s))).getD (pyInt (ci.1 * n + 1/2)).toNat 0
      ∧ (predict_ci meanF bernoulli_sample ts ws mu var ci n z).2.2
        = (sortAsc (z.map (fun s => quadrature ts ws meanF mu var
            + var * s))).getD (pyInt (ci.2 * n + 1/2)).toNat 0) := by
  refine ⟨fun f => rfl, ?_, ?_⟩
  · intro erf link hlink ts ws mu var ci n z
    rw [bernoulli_predict, if_neg hlink]
  · intro meanF ts ws mu var ci n z
    constructor
    · simp only [predict_ci, show bernoulli_sample = fun x : ℝ => x from rfl,
        List.map_id']
    · simp only [predict_ci, show bernoulli_sample = fun x : ℝ => x from rfl,
        List.map_id']

/-- C9, witness: the non-probit dispatch at the identity link with a concrete
error function. -/
theorem bernoulli_sample_identity_predict_inst :
    LinkFn.ident ≠ LinkFn.invProbit
    ∧ bernoulli_predict (fun x => x) LinkFn.ident [] [] 0 1 (0, 0) 0 []
      = predict_ci (bernoulli_mean (fun x => x) LinkFn.ident) bernoulli_sample
          [] [] 0 1 (0, 0) 0 [] :=
  ⟨by decide,
    bernoulli_sample_identity_predict.2.1 (fun x => x) LinkFn.ident (by decide)
      [] [] 0 1 (0, 0) 0 []⟩
